import Mathlib

/-! # Synapse: the agent conversation loop

A shallow embedding of the Go sources of the Synapse coding assistant
(`internal/agent`, `internal/tool`) together with theorems about them.

Modelling conventions.

* Go `string` values are Lean `String`s (text, i.e. valid UTF-8).
* A Go `error` is represented by its message (what `%v` prints).
* A Go panic (index out of range) is the `none` of an `Option`.
* Code outside the repository (the OpenAI wire types, `encoding/json`,
  `os`, `path/filepath`, the colour library, the `strings` package) is either
  a parameter or a definition following the library's documented behaviour.
-/

namespace Synapse

/-! ## Wire types (`internal/llm/types.go` aliases of the OpenAI client types) -/

/-- The `Function` part of a tool call: `Name` and `Arguments`. -/
structure FunctionCall where
  Name : String
  Arguments : String
deriving DecidableEq, Repr

/-- A tool call, `llm.ToolCall`. `Index` is a `*int` in Go: `none` is `nil`. -/
structure ToolCall where
  Index : Option Int
  ID : String
  Typ : String
  Function : FunctionCall
deriving DecidableEq, Repr

/-- The Go zero value `llm.ToolCall{}`. -/
def zeroToolCall : ToolCall :=
  { Index := none, ID := "", Typ := "", Function := { Name := "", Arguments := "" } }

/-- The constant `openai.ToolTypeFunction`. -/
def ToolTypeFunction : String := "function"

/-! ## `accumulateToolCalls` (`internal/agent/stream.go`) -/

/-- Apply `f` to the element at position `n` (an in-place update `xs[n] = f xs[n]`). -/
def modifyAt {α : Type} (f : α → α) : List α → Nat → List α
  | [], _ => []
  | x :: xs, 0 => f x :: xs
  | x :: xs, n + 1 => x :: modifyAt f xs n

/-- The four guarded field updates of the loop body, applied to `existing[idx]`. -/
def applyDelta (tc tcDelta : ToolCall) : ToolCall :=
  let tc := if tcDelta.ID ≠ "" then { tc with ID := tcDelta.ID } else tc
  let tc := if tcDelta.Typ ≠ "" then { tc with Typ := ToolTypeFunction } else tc
  let tc := if tcDelta.Function.Name ≠ "" then
      { tc with Function := { tc.Function with Name := tc.Function.Name ++ tcDelta.Function.Name } }
    else tc
  let tc := if tcDelta.Function.Arguments ≠ "" then
      { tc with Function :=
          { tc.Function with Arguments := tc.Function.Arguments ++ tcDelta.Function.Arguments } }
    else tc
  tc

/-- The loop `for len(existing) <= idx { existing = append(existing, llm.ToolCall{}) }`. -/
def growTo (existing : List ToolCall) (idx : Int) : List ToolCall :=
  existing ++ List.replicate (idx.toNat + 1 - existing.length) zeroToolCall

/-- The fragment has a non-empty `id`, `type`, `name` or `arguments`, so that at least one
of the four guards of the loop body holds and `existing[idx]` is evaluated. -/
def carriesData (tcDelta : ToolCall) : Prop :=
  tcDelta.ID ≠ "" ∨ tcDelta.Typ ≠ "" ∨ tcDelta.Function.Name ≠ "" ∨
    tcDelta.Function.Arguments ≠ ""

/-- One iteration of the `range delta` loop. With a negative index the growing loop does
nothing and `existing[idx]` panics (`none`) in the first guard that holds; when none of
the four guards holds, `existing[idx]` is never evaluated and the fragment is skipped. -/
def mergeFragment (existing : List ToolCall) (tcDelta : ToolCall) : Option (List ToolCall) :=
  match tcDelta.Index with
  | none => some existing
  | some idx =>
    if idx < 0 then
      if tcDelta.ID ≠ "" then none
      else if tcDelta.Typ ≠ "" then none
      else if tcDelta.Function.Name ≠ "" then none
      else if tcDelta.Function.Arguments ≠ "" then none
      else some existing
    else
      some (modifyAt (fun tc => applyDelta tc tcDelta) (growTo existing idx) idx.toNat)

/-- The function `accumulateToolCalls(existing, delta)`. -/
def accumulateToolCalls (existing : List ToolCall) : List ToolCall → Option (List ToolCall)
  | [] => some existing
  | tcDelta :: rest =>
    match mergeFragment existing tcDelta with
    | none => none
    | some existing => accumulateToolCalls existing rest

/-- The fragments of `delta` addressed to index `i`, in arrival order. -/
def fragmentsFor (i : Nat) (delta : List ToolCall) : List ToolCall :=
  delta.filter (fun f => decide (f.Index = some (i : Int)))

/-- The last non-empty string of a list, or `d` when there is none. -/
def lastNonEmpty (d : String) : List String → String
  | [] => d
  | s :: rest => lastNonEmpty (if s ≠ "" then s else d) rest

/-- The first non-empty string of a list, or `""` when there is none. -/
def firstNonEmpty : List String → String
  | [] => ""
  | s :: rest => if s ≠ "" then s else firstNonEmpty rest

/-- Entry `i` of a tool-call sequence, a zero-valued placeholder beyond its end. -/
def entry (l : List ToolCall) (i : Nat) : ToolCall := l.getD i zeroToolCall

/-- Concatenation of a list of strings, in order. -/
def concatAll : List String → String
  | [] => ""
  | s :: rest => s ++ concatAll rest

/-- A delta fragment addressed to index `i`. -/
def fragment (i : Int) (id name arguments : String) : ToolCall :=
  { Index := some i, ID := id, Typ := if id = "" then "" else "function",
    Function := { Name := name, Arguments := arguments } }

/-- Three fragments, two tool calls, interleaved. -/
def sampleDelta : List ToolCall :=
  [fragment 0 "call_a" "read" "ab", fragment 1 "call_b" "edit_file" "x",
   fragment 0 "" "_file" "cd"]

/-- What `sampleDelta` accumulates to. -/
def sampleMerged : List ToolCall :=
  [{ Index := none, ID := "call_a", Typ := "function",
     Function := { Name := "read_file", Arguments := "abcd" } },
   { Index := none, ID := "call_b", Typ := "function",
     Function := { Name := "edit_file", Arguments := "x" } }]

/-- The fragments of `sampleDelta` after a fragment with index `-1` that carries nothing. -/
def sampleWithStray : List ToolCall := fragment (-1) "" "" "" :: sampleDelta

/-- Two fragments for index 0 that carry different non-empty ids. -/
def twoIdsDelta : List ToolCall :=
  [fragment 0 "call_a" "read_file" "", fragment 0 "call_b" "" "ab"]

/-! ## Session (`internal/agent/session.go`) -/

/-- A conversation message, `llm.Message`, with the fields the agent uses. -/
structure Message where
  Role : String
  Content : String
  ToolCalls : List ToolCall
  ToolCallID : String
deriving DecidableEq, Repr

/-- The constant `systemPrompt`. -/
def systemPrompt : String :=
  "\n" ++
  "\tYou are Synapse, a hyper-intelligent AI coding familiar, seamlessly bridging human" ++
  " intent with machine execution. Your purpose is to act as an extension of the user's" ++
  " mind, transforming thoughts and high-level goals into precise, production-quality code." ++
  " You are not just an engineer; you are a proactive and collaborative partner in creation.\n" ++
  "\n" ++
  "\t## Core Identity & Principles:\n" ++
  "\t\n" ++
  "\t1.  **Clarity and Intent:** Your primary goal is to understand the user's *intent*, not" ++
  " just their literal words. If a request is ambiguous, ask clarifying questions before" ++
  " taking action.\n" ++
  "\t2.  **Proactive Thinking:** Don't just follow instructions. Anticipate potential issues," ++
  " suggest improvements, and recommend best practices. Think ahead about test cases, edge" ++
  " cases, and future scalability.\n" ++
  "\t3.  **Incremental & Observable Workflow:** Work in small, logical steps. Announce your" ++
  " plan, execute it, and then report the outcome. The user should always have a clear view" ++
  " of your thought process and actions.\n" ++
  "\t4.  **Ownership and Responsibility:** Treat the codebase as if it were your own. Write" ++
  " clean, maintainable, and well-documented code. When you modify existing code, ensure you" ++
  " maintain or improve its quality.\n" ++
  "\t5.  **Efficiency:** Use your tools decisively. When you determine a file operation is" ++
  " necessary, proceed directly to the tool call without excessive rumination. Act, then" ++
  " analyze the result.\n" ++
  "\t\n" ++
  "\t## Capabilities & Tool Usage:\n" ++
  "\t\n" ++
  "\tYou have direct access to the local filesystem through a set of secure functions.\n" ++
  "\t\n" ++
  "\t**[Tool Manifest]**\n" ++
  "\t*   read_file(file_path: string): To understand the content of a single file. **Always" ++
  " read before you write or edit.**\n" ++
  "\t*   create_file(file_path: string, content: string): To create a new file or completely" ++
  " overwrite an existing one. Use with caution.\n" ++
  "\t*   edit_file(file_path: string, original_snippet: string, new_snippet: string): For" ++
  " making precise, targeted changes. This is your preferred method for modification. Ensure" ++
  " the **original_snippet** is unique enough to avoid ambiguity.\n" ++
  "\t\n" ++
  "\t**[Interaction Workflow]**\n" ++
  "\t1.  **Analyze & Plan:** Upon receiving a request, first formulate a high-level plan." ++
  " Announce this plan to the user. (e.g., \"Okay, I understand. My plan is to: 1. Read" ++
  " **main.go** to see the current structure. 2. Add a new function **handleRequest**. 3." ++
  " Update the main function to call it. I'll start by reading the file.\")\n" ++
  "\t2.  **Execute with Tools:** Immediately call the first necessary tool.\n" ++
  "\t3.  **Report & Verify:** After a tool executes, you will receive the result (e.g., file" ++
  " content or a success message). Briefly acknowledge the result. (e.g., \"File read" ++
  " successfully. I see the main function...\")\n" ++
  "\t4.  **Synthesize & Reason:** Based on the new information, reason about the next step." ++
  " If you're about to write or edit, explain *what* you're changing and *why*.\n" ++
  "\t5.  **Generate & Finalize:** Generate the code or the final response. If you made" ++
  " changes, provide a concise summary of the work completed.\n" ++
  "\t6.  **Suggest Next Steps:** Conclude by suggesting what could be done next, such as \"I" ++
  " can now write a unit test for this new function, or we can move on to refactoring the" ++
  " error handling. What would you like to do?\"\n" ++
  "\t\n" ++
  "\tYou are Synapse. Your dialogue is clear, concise, and professional. Let's begin building."

/-- The constant `maxHistory`. -/
def maxHistory : Nat := 20

/-- The message `{Role: "system", Content: systemPrompt}`. -/
def systemMessage : Message :=
  { Role := "system", Content := systemPrompt, ToolCalls := [], ToolCallID := "" }

/-- The struct `Session`; the mutex carries no data. -/
structure Session where
  History : List Message
deriving DecidableEq, Repr

/-- The constructor `NewSession()`. -/
def NewSession : Session := { History := [systemMessage] }

namespace Session

/-- The method `AddMessage`. -/
def AddMessage (s : Session) (msg : Message) : Session :=
  { History := s.History ++ [msg] }

/-- The method `AddUserMessage`. -/
def AddUserMessage (s : Session) (content : String) : Session :=
  s.AddMessage { Role := "user", Content := content, ToolCalls := [], ToolCallID := "" }

/-- The method `AddAssistantMessage`: the tool calls are attached only when there are some. -/
def AddAssistantMessage (s : Session) (content : String) (toolCalls : List ToolCall) : Session :=
  let msg : Message := { Role := "assistant", Content := content, ToolCalls := [], ToolCallID := "" }
  let msg := if toolCalls.length > 0 then { msg with ToolCalls := toolCalls } else msg
  s.AddMessage msg

/-- The method `AddToolMessage`. -/
def AddToolMessage (s : Session) (toolCallID content : String) : Session :=
  s.AddMessage { Role := "tool", Content := content, ToolCalls := [], ToolCallID := toolCallID }

/-- The method `GetHistory`: a copy of the history. -/
def GetHistory (s : Session) : List Message := s.History

/-- The method `TrimHistory`. -/
def TrimHistory (s : Session) : Session :=
  if s.History.length ≤ maxHistory then s
  else
    match s.History with
    | [] => s
    | systemMsg :: _ =>
      let relevantHistory := s.History.drop (s.History.length - (maxHistory - 1))
      { History := [systemMsg] ++ relevantHistory }

/-- The method `Reset`. -/
def Reset (s : Session) : Session :=
  match s.History with
  | first :: _ =>
    if first.Role = "system" then { History := s.History.take 1 }
    else { History := [systemMessage] }
  | [] => { History := [systemMessage] }

/-- The method `AddFileToContext`. -/
def AddFileToContext (s : Session) (path content : String) : Session :=
  { History := s.History ++
      [{ Role := "system",
         Content := "CONTEXT: The content of file \'" ++ path
           ++ "\' has been provided:\n\n---\n" ++ content ++ "\n---",
         ToolCalls := [], ToolCallID := "" }] }

end Session

/-- The operations a caller can apply to a session. -/
inductive SessionOp where
  | addUser (content : String)
  | addAssistant (content : String) (toolCalls : List ToolCall)
  | addTool (toolCallID content : String)
  | addFile (path content : String)
  | trim
  | reset
deriving DecidableEq, Repr

/-- Apply one operation. -/
def applyOp (s : Session) : SessionOp → Session
  | .addUser c => s.AddUserMessage c
  | .addAssistant c tcs => s.AddAssistantMessage c tcs
  | .addTool i c => s.AddToolMessage i c
  | .addFile p c => s.AddFileToContext p c
  | .trim => s.TrimHistory
  | .reset => s.Reset

/-- Apply a sequence of operations, first to last. -/
def runOps (s : Session) (ops : List SessionOp) : Session := ops.foldl applyOp s

/-- A user message with the given content. -/
def userMessage (content : String) : Message :=
  { Role := "user", Content := content, ToolCalls := [], ToolCallID := "" }

/-- A history of `n + 1` messages: a system message followed by user messages
numbered `1, …, n`. -/
def longHistory : Nat → List Message
  | 0 => [systemMessage]
  | n + 1 => longHistory n ++ [userMessage (toString (n + 1))]

/-! ## The `strings` package (Go standard library), on texts as character sequences -/

namespace Strings

/-- `strings.Index(s, substr)`: the offset of the first occurrence of `substr` in `s`;
`none` stands for the result `-1`. -/
def Index : List Char → List Char → Option Nat
  | [], substr => if substr = [] then some 0 else none
  | c :: t, substr =>
    if substr.isPrefixOf (c :: t) then some 0 else (Index t substr).map (· + 1)

/-- `strings.Contains(s, substr)`, which is `Index(s, substr) >= 0`. -/
def Contains (s substr : String) : Bool := (Index s.data substr.data).isSome

/-- The loop of `strings.Count` for a non-empty `substr`:
`for { i := Index(s, substr); if i == -1 { return n }; n++; s = s[i+len(substr):] }`.
The first argument bounds the number of iterations. -/
def countLoop (substr : List Char) : Nat → List Char → Nat → Nat
  | 0, _, n => n
  | fuel + 1, s, n =>
    match Index s substr with
    | none => n
    | some i => countLoop substr fuel (s.drop (i + substr.length)) (n + 1)

/-- `strings.Count(s, substr)`: the number of non-overlapping instances of `substr` in
`s`; for an empty `substr`, one more than the number of characters of `s`. Every
iteration of the loop removes at least one character, so `len(s) + 1` iterations are
enough (`countLoop_fuel`). -/
def Count (s substr : String) : Nat :=
  if substr.data.length = 0 then s.data.length + 1
  else countLoop substr.data (s.data.length + 1) s.data 0

/-- The replacement loop of `strings.Replace`, `for i := 0; i < n; i++`, with `remaining`
the iterations left, `start` the read position and `b` the builder. `Replace` runs it
with `n` at most `Count(s, old)`, so `Index` finds `old` in every iteration. -/
def replaceLoop (s old new : List Char) : Nat → Nat → Nat → List Char → List Char
  | 0, _, start, b => b ++ s.drop start
  | remaining + 1, i, start, b =>
    if old.length = 0 then
      let j := if i > 0 then start + 1 else start
      replaceLoop s old new remaining (i + 1) (j + old.length)
        (b ++ (s.drop start).take (j - start) ++ new)
    else
      match Index (s.drop start) old with
      | none => b ++ s.drop start
      | some off =>
        replaceLoop s old new remaining (i + 1) (start + off + old.length)
          (b ++ (s.drop start).take off ++ new)

/-- `strings.Replace(s, old, new, n)`: `s` with the first `n` non-overlapping instances of
`old` replaced by `new` (all of them when `n < 0`). -/
def Replace (s old new : String) (n : Int) : String :=
  if old = new ∨ n = 0 then s
  else
    let m := Count s old
    if m = 0 then s
    else
      let n : Nat := if n < 0 ∨ (m : Int) < n then m else n.toNat
      String.mk (replaceLoop s.data old.data new.data n 0 0 [])

end Strings

/-! ## Tools (`internal/tool`) -/

/-- What a tool returns: the Go pair `(string, error)`, `err = none` for `nil`. -/
structure ToolResult where
  result : String
  err : Option String
deriving DecidableEq, Repr

/-- The type `ToolFunc`; a tool may read and change the world `W` (the file system). -/
abbrev ToolFunc (W : Type) := String → W → ToolResult × W

/-- The argument struct of `toolReadFile`. -/
structure ReadFileArgs where
  FilePath : String
deriving DecidableEq, Repr

/-- The argument struct of `toolCreateFile`. -/
structure CreateFileArgs where
  FilePath : String
  Content : String
deriving DecidableEq, Repr

/-- The argument struct of `toolEditFile`. -/
structure EditFileArgs where
  FilePath : String
  OriginalSnippet : String
  NewSnippet : String
deriving DecidableEq, Repr

/-- The library and operating-system calls the tools make, over a world `W`:
`json.Unmarshal` into each argument struct, `filepath.Abs`, `filepath.Dir`,
`os.ReadFile`, `os.MkdirAll` and `os.WriteFile`. A failing call gives its error
message; `MkdirAll` and `WriteFile` may change the world even when they fail. -/
structure Env (W : Type) where
  unmarshalReadFile : String → Except String ReadFileArgs
  unmarshalCreateFile : String → Except String CreateFileArgs
  unmarshalEditFile : String → Except String EditFileArgs
  Abs : String → Except String String
  Dir : String → String
  ReadFile : W → String → Except String String
  MkdirAll : W → String → Option String × W
  WriteFile : W → String → String → Option String × W

section Tools

variable {W : Type}

/-- The helper `normalizePath`. -/
def normalizePath (env : Env W) (p : String) : Except String String :=
  match env.Abs p with
  | .error err => .error err
  | .ok absPath =>
    if Strings.Contains absPath ".." then .error "invalid path: contains \'..\'"
    else .ok absPath

/-- The helper `readLocalFile`. -/
def readLocalFile (env : Env W) (w : W) (path : String) : Except String String :=
  match normalizePath env path with
  | .error err => .error err
  | .ok normalizedPath =>
    match env.ReadFile w normalizedPath with
    | .error err => .error err
    | .ok data => .ok data

/-- The helper `createFile`: the returned option is the Go `error`. -/
def createFile (env : Env W) (w : W) (path content : String) : Option String × W :=
  match normalizePath env path with
  | .error err => (some err, w)
  | .ok normalizedPath =>
    let dir := env.Dir normalizedPath
    match env.MkdirAll w dir with
    | (some err, w) => (some err, w)
    | (none, w) => env.WriteFile w normalizedPath content

/-- The tool `toolReadFile`. -/
def toolReadFile (env : Env W) : ToolFunc W := fun arguments w =>
  match env.unmarshalReadFile arguments with
  | .error err => (⟨"", some ("invalid arguments for read_file: " ++ err)⟩, w)
  | .ok args =>
    match readLocalFile env w args.FilePath with
    | .error err =>
      (⟨"", some ("error reading file \'" ++ args.FilePath ++ "\': " ++ err)⟩, w)
    | .ok content =>
      (⟨"Content of file \'" ++ args.FilePath ++ "\':\n\n" ++ content, none⟩, w)

/-- The tool `toolCreateFile`. -/
def toolCreateFile (env : Env W) : ToolFunc W := fun arguments w =>
  match env.unmarshalCreateFile arguments with
  | .error err => (⟨"", some ("invalid arguments for create_file: " ++ err)⟩, w)
  | .ok args =>
    match createFile env w args.FilePath args.Content with
    | (some err, w) =>
      (⟨"", some ("error creating file \'" ++ args.FilePath ++ "\': " ++ err)⟩, w)
    | (none, w) =>
      (⟨"Successfully created/updated file \'" ++ args.FilePath ++ "\'", none⟩, w)

/-- The tool `toolEditFile`. -/
def toolEditFile (env : Env W) : ToolFunc W := fun arguments w =>
  match env.unmarshalEditFile arguments with
  | .error err => (⟨"", some ("invalid arguments for edit_file: " ++ err)⟩, w)
  | .ok args =>
    match readLocalFile env w args.FilePath with
    | .error err => (⟨"", some err⟩, w)
    | .ok content =>
      let occurrences := Strings.Count content args.OriginalSnippet
      if occurrences = 0 then (⟨"", some "original snippet not found in file"⟩, w)
      else if occurrences > 1 then
        (⟨"", some ("ambiguous edit: " ++ toString occurrences
              ++ " matches found for the snippet")⟩, w)
      else
        let updatedContent := Strings.Replace content args.OriginalSnippet args.NewSnippet 1
        match createFile env w args.FilePath updatedContent with
        | (some err, w) => (⟨"", some err⟩, w)
        | (none, w) =>
          (⟨"Successfully applied edit to file \'" ++ args.FilePath ++ "\'", none⟩, w)

/-- The table `registry`: tool name to implementation (a Go map, kept as an association
list whose names are distinct because `Register` refuses duplicates). -/
abbrev Registry (W : Type) := List (String × ToolFunc W)

/-- The function `GetExecutor`: `none` stands for `found == false`. -/
def GetExecutor (registry : Registry W) (name : String) : Option (ToolFunc W) :=
  registry.lookup name

/-- The function `Register` on the executor table: registering a name twice panics. -/
def Register (registry : Registry W) (name : String) (fn : ToolFunc W) :
    Option (Registry W) :=
  match GetExecutor registry name with
  | some _ => none
  | none => some (registry ++ [(name, fn)])

/-- The executor table after `registerFileTools` ran on an empty registry. -/
def registerFileTools (env : Env W) : Option (Registry W) :=
  match Register [] "read_file" (toolReadFile env) with
  | none => none
  | some registry =>
    match Register registry "create_file" (toolCreateFile env) with
    | none => none
    | some registry => Register registry "edit_file" (toolEditFile env)

/-- The function `Execute`. -/
def Execute (registry : Registry W) (name arguments : String) (w : W) : ToolResult × W :=
  match GetExecutor registry name with
  | none => (⟨"", some ("tool \'" ++ name ++ "\' not found in registry")⟩, w)
  | some executorFunc => executorFunc arguments w

end Tools

/-- The offsets at which `snippet` occurs in `content`, overlapping occurrences included. -/
def occurrencePositions (content snippet : String) : List Nat :=
  (List.range (content.data.length + 1)).filter
    (fun i => snippet.data.isPrefixOf (content.data.drop i))

/-! ## A small environment for concrete runs -/

/-- An in-memory file store: absolute path and content of each file. -/
abbrev Files := List (String × String)

/-- Arguments of a `read_file` call on `/tmp/a.txt`. -/
def readArgsJSON : String := "\x7b\"file_path\": \"/tmp/a.txt\"\x7d"

/-- Arguments of an `edit_file` call replacing `world` by `there` in `/tmp/a.txt`. -/
def editWorldJSON : String :=
  "\x7b\"file_path\": \"/tmp/a.txt\", \"original_snippet\": \"world\", " ++
  "\"new_snippet\": \"there\"\x7d"

/-- Arguments of an `edit_file` call replacing `aa` by `b` in `/tmp/a.txt`. -/
def editAaJSON : String :=
  "\x7b\"file_path\": \"/tmp/a.txt\", \"original_snippet\": \"aa\", " ++
  "\"new_snippet\": \"b\"\x7d"

/-- An environment over `Files`: paths are already absolute, every directory exists,
every write succeeds, and the decoders know the three argument texts above. -/
def testEnv : Env Files :=
  { unmarshalReadFile := fun a =>
      if a = readArgsJSON then .ok ⟨"/tmp/a.txt"⟩ else .error "unexpected end of JSON input"
    unmarshalCreateFile := fun _ => .error "unexpected end of JSON input"
    unmarshalEditFile := fun a =>
      if a = editWorldJSON then .ok ⟨"/tmp/a.txt", "world", "there"⟩
      else if a = editAaJSON then .ok ⟨"/tmp/a.txt", "aa", "b"⟩
      else .error "unexpected end of JSON input"
    Abs := fun p => .ok p
    Dir := fun _ => "/tmp"
    ReadFile := fun w p =>
      match w.lookup p with
      | some c => .ok c
      | none => .error ("open " ++ p ++ ": no such file or directory")
    MkdirAll := fun w _ => (none, w)
    WriteFile := fun w p c => (none, (p, c) :: w.filter (fun e => e.1 != p)) }

/-! ## The agent loop (`internal/agent/stream.go`) -/

/-- A tool schema, `llm.Tool`. -/
structure Tool where
  Typ : String
  Name : String
  Description : String
  Parameters : String
deriving DecidableEq, Repr

/-- The request `llm.ChatCompletionRequest`, with the fields the loop sets. -/
structure ChatCompletionRequest where
  Messages : List Message
  Tools : List Tool
  Stream : Bool
deriving DecidableEq, Repr

/-- The `Delta` of a stream choice. -/
structure Delta where
  Content : String
  ToolCalls : List ToolCall
deriving DecidableEq, Repr

/-- One element of `response.Choices`. -/
structure Choice where
  Delta : Delta
deriving DecidableEq, Repr

/-- One value returned by `stream.Recv()` without error. -/
structure StreamResponse where
  Choices : List Choice
deriving DecidableEq, Repr

/-- A response stream as the loop observes it: the responses `Recv` returns, then the
error that ends it, `none` for `io.EOF`. -/
structure ChatCompletionStream where
  responses : List StreamResponse
  err : Option String
deriving DecidableEq, Repr

/-- The interface `llm.LLMProvider`. `CreateChatCompletionStream i req` is the answer to
the request `req` when `i` requests were made before it in this turn, so the answers
may depend on the whole exchange; `.error` is a synchronous failure. -/
structure LLMProvider where
  CreateChatCompletionStream : Nat → ChatCompletionRequest → Except String ChatCompletionStream
  GetTools : List Tool

/-- The colour functions of `internal/ui` (they wrap a text in terminal colour codes). -/
structure UI where
  Blue : String → String
  Cyan : String → String
  BrightCyan : String → String
  Green : String → String
  Red : String → String
  Yellow : String → String

/-- The constant `maxTurns`. -/
def maxTurns : Nat := 10

/-- How the inner `for` loop over `stream.Recv()` ends. `tokens` are the values sent on
the output channel meanwhile, in order. -/
inductive RecvResult where
  | eof (fullResponse : String) (accumulatedToolCalls : List ToolCall) (tokens : List String)
  | streamError (err : String) (tokens : List String)
  | panicked (tokens : List String)
deriving DecidableEq, Repr

/-- The inner loop of `handleStreaming`, from the state `fullResponse`,
`accumulatedToolCalls`. `response.Choices[0]` panics on a response without choices. -/
def recvLoop (err : Option String) :
    List StreamResponse → String → List ToolCall → List String → RecvResult
  | [], fullResponse, accumulatedToolCalls, tokens =>
    match err with
    | none => .eof fullResponse accumulatedToolCalls tokens
    | some e => .streamError e tokens
  | response :: rest, fullResponse, accumulatedToolCalls, tokens =>
    match response.Choices with
    | [] => .panicked tokens
    | choice :: _ =>
      let delta := choice.Delta
      let fullResponse := if delta.Content ≠ "" then fullResponse ++ delta.Content
        else fullResponse
      let tokens := if delta.Content ≠ "" then tokens ++ [delta.Content] else tokens
      if delta.ToolCalls.length > 0 then
        match accumulateToolCalls accumulatedToolCalls delta.ToolCalls with
        | none => .panicked tokens
        | some accumulatedToolCalls => recvLoop err rest fullResponse accumulatedToolCalls tokens
      else recvLoop err rest fullResponse accumulatedToolCalls tokens

/-- What the agent loop works on: the session, the world the tools act on, the tokens
sent on the output channel so far, and the requests sent to the provider so far. -/
structure AgentState (W : Type) where
  session : Session
  world : W
  output : List String
  requests : List ChatCompletionRequest

/-- The text recorded for a failed tool call. -/
def toolErrorMsg (name err : String) : String :=
  "Error executing tool \'" ++ name ++ "\': " ++ err

/-- The body of the `range toolCalls` loop of `executeToolCalls`, for one tool call. -/
def executeToolCall {W : Type} (ui : UI) (registry : Registry W) (st : AgentState W)
    (tc : ToolCall) : AgentState W :=
  let output := st.output ++ ["\n" ++ ui.Blue "→ Calling tool:" ++ " " ++ ui.Cyan tc.Function.Name]
  match Execute registry tc.Function.Name tc.Function.Arguments st.world with
  | (⟨_, some err⟩, world) =>
    let errorMsg := toolErrorMsg tc.Function.Name err
    { st with
      output := output ++ ["\n" ++ ui.Red errorMsg]
      session := st.session.AddToolMessage tc.ID errorMsg
      world := world }
  | (⟨result, none⟩, world) =>
    { st with
      session := st.session.AddToolMessage tc.ID result
      output := output ++ ["\n" ++ ui.Green "✓ Tool finished."]
      world := world }

/-- The function `executeToolCalls`. -/
def executeToolCalls {W : Type} (ui : UI) (registry : Registry W) (st : AgentState W)
    (toolCalls : List ToolCall) : AgentState W :=
  let st := { st with output := st.output ++
    ["\n" ++ ui.BrightCyan ("⚡ Executing " ++ toString toolCalls.length ++ " function call(s)...")] }
  let st := toolCalls.foldl (executeToolCall ui registry) st
  { st with output := st.output ++ ["\n" ++ ui.BrightCyan "🔄 Resuming conversation..."] }

/-- How a call of `handleStreaming` ends. In every case but `panicked` the deferred
`close(outputChan)` closes the output channel. -/
inductive Termination where
  | finished
  | apiError
  | streamError
  | maxTurnsReached
  | panicked
deriving DecidableEq, Repr

/-- The outcome of one iteration of the outer loop: `continue` or `return`. -/
inductive RoundResult (W : Type) where
  | next (st : AgentState W)
  | stop (st : AgentState W) (how : Termination)

/-- One iteration of the outer `for` loop of `handleStreaming`, the `i`-th (from 0). -/
def round {W : Type} (ui : UI) (registry : Registry W) (provider : LLMProvider) (i : Nat)
    (st : AgentState W) : RoundResult W :=
  let session := st.session.TrimHistory
  let req : ChatCompletionRequest :=
    { Messages := session.GetHistory, Tools := provider.GetTools, Stream := true }
  let st := { st with session := session, requests := st.requests ++ [req] }
  match provider.CreateChatCompletionStream i req with
  | .error err =>
    .stop { st with output := st.output ++ [ui.Red ("API Error: " ++ err)] } .apiError
  | .ok stream =>
    match recvLoop stream.err stream.responses "" [] [] with
    | .panicked tokens => .stop { st with output := st.output ++ tokens } .panicked
    | .streamError err tokens =>
      .stop { st with output := st.output ++ tokens ++ [ui.Red ("Stream Error: " ++ err)] }
        .streamError
    | .eof fullResponse accumulatedToolCalls tokens =>
      let st := { st with
        output := st.output ++ tokens
        session := st.session.AddAssistantMessage fullResponse accumulatedToolCalls }
      if accumulatedToolCalls.length > 0 then
        .next (executeToolCalls ui registry st accumulatedToolCalls)
      else .stop st .finished

/-- The text of the max-turns warning. -/
def maxTurnsWarning : String := "\nWarning: Maximum conversation turns reached."

/-- The outer loop `for i := 0; i < maxTurns; i++` with `remaining = maxTurns - i`
iterations left, and the warning sent when it runs out. -/
def turnLoop {W : Type} (ui : UI) (registry : Registry W) (provider : LLMProvider) :
    Nat → Nat → AgentState W → AgentState W × Termination
  | 0, _, st =>
    ({ st with output := st.output ++ [ui.Yellow maxTurnsWarning] }, .maxTurnsReached)
  | remaining + 1, i, st =>
    match round ui registry provider i st with
    | .next st => turnLoop ui registry provider remaining (i + 1) st
    | .stop st how => (st, how)

/-- The method `handleStreaming`, run on a session and a world, with nothing sent yet. -/
def handleStreaming {W : Type} (ui : UI) (registry : Registry W) (provider : LLMProvider)
    (session : Session) (world : W) : AgentState W × Termination :=
  turnLoop ui registry provider maxTurns 0
    { session := session, world := world, output := [], requests := [] }

/-- Uncoloured output, for concrete runs. -/
def plainUI : UI :=
  { Blue := id, Cyan := id, BrightCyan := id, Green := id, Red := id, Yellow := id }

/-- The results `Execute` gives for the tool calls run in order, each on the world the
calls before it left. -/
def toolResults {W : Type} (registry : Registry W) : W → List ToolCall → List ToolResult
  | _, [] => []
  | w, tc :: rest =>
    (Execute registry tc.Function.Name tc.Function.Arguments w).1 ::
      toolResults registry (Execute registry tc.Function.Name tc.Function.Arguments w).2 rest

/-- The world after the tool calls ran in order. -/
def worldAfter {W : Type} (registry : Registry W) : W → List ToolCall → W
  | w, [] => w
  | w, tc :: rest =>
    worldAfter registry (Execute registry tc.Function.Name tc.Function.Arguments w).2 rest

/-- The content recorded for a tool call with result `r`: the result string on success,
an error description on failure. -/
def toolContent (tc : ToolCall) (r : ToolResult) : String :=
  match r.err with
  | some err => toolErrorMsg tc.Function.Name err
  | none => r.result

/-- The tool-role message recorded for a tool call with result `r`. -/
def toolMessage (tc : ToolCall) (r : ToolResult) : Message :=
  { Role := "tool", Content := toolContent tc r, ToolCalls := [], ToolCallID := tc.ID }

/-- An assistant message. -/
def assistantMessage (content : String) (toolCalls : List ToolCall) : Message :=
  { Role := "assistant", Content := content, ToolCalls := toolCalls, ToolCallID := "" }

/-- The request built at the start of a round from the session. -/
def requestOf (provider : LLMProvider) (session : Session) : ChatCompletionRequest :=
  { Messages := session.TrimHistory.GetHistory, Tools := provider.GetTools, Stream := true }

/-- The executor table holding the three file tools. -/
def fileTools {W : Type} (env : Env W) : Registry W :=
  [("read_file", toolReadFile env), ("create_file", toolCreateFile env),
   ("edit_file", toolEditFile env)]

/-- A stream carrying one `read_file` tool call and no text. -/
def readCallStream : ChatCompletionStream :=
  { responses :=
      [{ Choices :=
          [{ Delta := ⟨"", [fragment 0 "call_1" "read_file" readArgsJSON]⟩ }] }],
    err := none }

/-- A stream carrying the text `Done` and no tool call. -/
def doneStream : ChatCompletionStream :=
  { responses := [{ Choices := [{ Delta := { Content := "Done", ToolCalls := [] } }] }],
    err := none }

/-- A provider that first asks for `read_file` and then answers `Done`. -/
def scenarioProvider : LLMProvider :=
  { CreateChatCompletionStream :=
      fun i _ => if i = 0 then .ok readCallStream else .ok doneStream,
    GetTools := [] }

/-- A provider that asks for `read_file` in every answer. -/
def insistentProvider : LLMProvider :=
  { CreateChatCompletionStream := fun _ _ => .ok readCallStream,
    GetTools := [] }

/-- The tool call `readCallStream` accumulates to. -/
def readCall : ToolCall :=
  { Index := none, ID := "call_1", Typ := "function",
    Function := { Name := "read_file", Arguments := readArgsJSON } }

/-- A file store with one file. -/
def sampleFiles : Files := [("/tmp/a.txt", "hello world")]

/-- The provider answer to request number `i` is a stream that ends normally and
carries at least one tool call. -/
def AnswersWithToolCall (provider : LLMProvider) (i : Nat) : Prop :=
  ∀ req, ∃ stream fullResponse toolCalls tokens,
    provider.CreateChatCompletionStream i req = .ok stream ∧
    recvLoop stream.err stream.responses "" [] [] = .eof fullResponse toolCalls tokens ∧
    toolCalls ≠ []

/-- The argument text of a call without arguments. -/
def emptyArgsJSON : String := "\x7b\x7d"

/-- A stream carrying one call of a tool that is not registered, and no text. -/
def unknownCallStream : ChatCompletionStream :=
  { responses :=
      [{ Choices :=
          [{ Delta := ⟨"", [fragment 0 "call_9" "nonexistent_tool" emptyArgsJSON]⟩ }] }],
    err := none }

/-- The tool call `unknownCallStream` accumulates to. -/
def unknownCall : ToolCall :=
  { Index := none, ID := "call_9", Typ := "function",
    Function := { Name := "nonexistent_tool", Arguments := emptyArgsJSON } }

/-- A provider that first asks for a tool that does not exist and then answers `Done`. -/
def confusedProvider : LLMProvider :=
  { CreateChatCompletionStream :=
      fun i _ => if i = 0 then .ok unknownCallStream else .ok doneStream,
    GetTools := [] }

/-- The tokens `executeToolCalls` sends for one tool call with result `r`: the calling-tool
notice, then the error description in red when the call failed and the finished notice
otherwise. -/
def toolTokens (ui : UI) (tc : ToolCall) (r : ToolResult) : List String :=
  ["\n" ++ ui.Blue "→ Calling tool:" ++ " " ++ ui.Cyan tc.Function.Name,
   match r.err with
   | some err => "\n" ++ ui.Red (toolErrorMsg tc.Function.Name err)
   | none => "\n" ++ ui.Green "✓ Tool finished."]

/-- The tokens sent for the tool calls run in order, each on the world the calls before it
left. -/
def toolOutput {W : Type} (ui : UI) (registry : Registry W) : W → List ToolCall → List String
  | _, [] => []
  | w, tc :: rest =>
    toolTokens ui tc (Execute registry tc.Function.Name tc.Function.Arguments w).1 ++
      toolOutput ui registry (Execute registry tc.Function.Name tc.Function.Arguments w).2 rest

/-- A provider whose call fails at once. -/
def failingProvider : LLMProvider :=
  { CreateChatCompletionStream := fun _ _ => .error "connection refused",
    GetTools := [] }

/-- A stream that delivers the text `Hel` and then breaks. -/
def brokenStream : ChatCompletionStream :=
  { responses := [{ Choices := [{ Delta := ⟨"Hel", []⟩ }] }],
    err := some "unexpected EOF" }

/-- A provider whose streams break in the middle. -/
def brokenProvider : LLMProvider :=
  { CreateChatCompletionStream := fun _ _ => .ok brokenStream,
    GetTools := [] }

/-- The text `t` is the non-empty content of the delta of one of the responses. -/
def IsTextDelta (responses : List StreamResponse) (t : String) : Prop :=
  t ≠ "" ∧ ∃ response ∈ responses, ∃ choice, response.Choices.head? = some choice ∧
    t = choice.Delta.Content

/-- The fragments of `sampleDelta`, grouped by index instead of interleaved. -/
def sampleGrouped : List ToolCall :=
  [fragment 0 "call_a" "read" "ab", fragment 0 "" "_file" "cd",
   fragment 1 "call_b" "edit_file" "x"]

/-- The states at the start of the rounds that `turnLoop` runs, in order: the given state,
then the state each round hands to the next one. -/
def roundStarts {W : Type} (ui : UI) (registry : Registry W) (provider : LLMProvider) :
    Nat → Nat → AgentState W → List (AgentState W)
  | 0, _, _ => []
  | remaining + 1, i, st =>
    st :: match round ui registry provider i st with
      | .next st2 => roundStarts ui registry provider remaining (i + 1) st2
      | .stop _ _ => []

/-! ## Paths (`path/filepath` of the Go standard library, Unix) -/

namespace Filepath

/-- The elements of a path: the pieces between its `/` separators. -/
def splitSlash : List Char → List (List Char)
  | [] => [[]]
  | c :: rest =>
    if c = '/' then [] :: splitSlash rest
    else
      match splitSlash rest with
      | [] => [[c]]
      | x :: xs => (c :: x) :: xs

/-- The elements of a rooted path after `filepath.Clean`: empty elements and `.` are
dropped, `..` removes the element before it and is dropped at the root. `stack` holds the
elements kept so far, last first. -/
def cleanElements : List (List Char) → List (List Char) → List (List Char)
  | stack, [] => stack.reverse
  | stack, e :: rest =>
    if e = [] ∨ e = ['.'] then cleanElements stack rest
    else if e = ['.', '.'] then cleanElements stack.tail rest
    else cleanElements (e :: stack) rest

/-- Each element preceded by a `/`. -/
def joinSlash : List (List Char) → List Char
  | [] => []
  | e :: rest => '/' :: e ++ joinSlash rest

/-- `filepath.Clean` on a rooted path; the root itself is `/`. -/
def cleanRooted (p : List Char) : List Char :=
  match joinSlash (cleanElements [] (splitSlash p)) with
  | [] => ['/']
  | c :: q => c :: q

/-- `filepath.IsAbs` on Unix: the path begins with `/`. -/
def IsAbs (path : String) : Bool := path.data.head? = some '/'

/-- `filepath.Abs` on Unix with working directory `wd` (itself absolute): an absolute
path is cleaned, any other path is joined to `wd` and cleaned. -/
def Abs (wd path : String) : String :=
  if IsAbs path then String.mk (cleanRooted path.data)
  else String.mk (cleanRooted (wd.data ++ '/' :: path.data))

end Filepath

/-- The path `q` is the directory `root` or lies below it. -/
def insideRoot (root q : String) : Bool :=
  q = root || (root.data ++ ['/']).isPrefixOf q.data

/-- Arguments of a `read_file` call with a relative path that climbs out of the
working directory. -/
def climbArgsJSON : String := "\x7b\"file_path\": \"../../../etc/passwd\"\x7d"

/-- Arguments of a `read_file` call on a file whose name contains two dots. -/
def dotsArgsJSON : String := "\x7b\"file_path\": \"notes..txt\"\x7d"

/-- An environment over `Files` in which paths are resolved as on Unix from the working
directory `wd`; every directory exists, every write succeeds, and the `read_file`
decoder knows the two argument texts above. -/
def unixEnv (wd : String) : Env Files :=
  { unmarshalReadFile := fun a =>
      if a = climbArgsJSON then .ok ⟨"../../../etc/passwd"⟩
      else if a = dotsArgsJSON then .ok ⟨"notes..txt"⟩
      else .error "unexpected end of JSON input"
    unmarshalCreateFile := fun _ => .error "unexpected end of JSON input"
    unmarshalEditFile := fun _ => .error "unexpected end of JSON input"
    Abs := fun p => .ok (Filepath.Abs wd p)
    Dir := fun _ => wd
    ReadFile := fun w p =>
      match w.lookup p with
      | some c => .ok c
      | none => .error ("open " ++ p ++ ": no such file or directory")
    MkdirAll := fun w _ => (none, w)
    WriteFile := fun w p c => (none, (p, c) :: w.filter (fun e => e.1 != p)) }

/-- The working directory of the concrete runs. -/
def projectDir : String := "/home/user/project"

/-- A file store with a file outside the working directory and one inside it. -/
def systemFiles : Files :=
  [("/etc/passwd", "root:x:0:0"), ("/home/user/project/notes..txt", "todo")]

/-! # Theorems -/

open Strings

/-! ## Tool-call accumulation -/

theorem entry_growTo (e : List ToolCall) (idx : Int) (i : Nat) :
    entry (growTo e idx) i = entry e i := by
  unfold entry growTo
  rw [List.getD_eq_getElem?_getD, List.getD_eq_getElem?_getD]
  by_cases h : i < e.length
  · rw [List.getElem?_append_left h]
  · have h2 : e.length ≤ i := Nat.le_of_not_lt h
    rw [List.getElem?_append_right h2, List.getElem?_eq_none h2]
    by_cases h3 : i - e.length < idx.toNat + 1 - e.length
    · rw [List.getElem?_replicate_of_lt h3]; rfl
    · rw [List.getElem?_eq_none (by simpa using h3)]

theorem length_growTo (e : List ToolCall) (idx : Int) :
    (growTo e idx).length = max e.length (idx.toNat + 1) := by
  unfold growTo
  simp only [List.length_append, List.length_replicate]
  omega

theorem length_modifyAt {α : Type} (f : α → α) (l : List α) (k : Nat) :
    (modifyAt f l k).length = l.length := by
  induction l generalizing k with
  | nil => rfl
  | cons x xs ih =>
    cases k with
    | zero => rfl
    | succ n => simp [modifyAt, ih]

theorem getD_modifyAt {α : Type} (f : α → α) (d : α) (l : List α) (k i : Nat)
    (hk : k < l.length) :
    (modifyAt f l k).getD i d = if i = k then f (l.getD i d) else l.getD i d := by
  induction l generalizing k i with
  | nil => simp at hk
  | cons x xs ih =>
    cases k with
    | zero =>
      cases i with
      | zero => simp [modifyAt]
      | succ j => simp [modifyAt]
    | succ n =>
      cases i with
      | zero => simp [modifyAt]
      | succ j =>
        have hn : n < xs.length := by simpa using hk
        simp only [modifyAt, List.getD_cons_succ, ih n j hn]
        simp

theorem mergeFragment_nil_index (e : List ToolCall) (f : ToolCall) (h : f.Index = none) :
    mergeFragment e f = some e := by
  simp [mergeFragment, h]

theorem mergeFragment_neg (e : List ToolCall) (f : ToolCall) (k : Int)
    (h : f.Index = some k) (hk : k < 0) (hd : carriesData f) : mergeFragment e f = none := by
  unfold carriesData at hd
  simp only [mergeFragment, h, hk, if_true]
  by_cases h1 : f.ID = "" <;> by_cases h2 : f.Typ = "" <;>
    by_cases h3 : f.Function.Name = "" <;> by_cases h4 : f.Function.Arguments = "" <;>
    simp [h1, h2, h3, h4] at hd ⊢

theorem mergeFragment_neg_skip (e : List ToolCall) (f : ToolCall) (k : Int)
    (h : f.Index = some k) (hk : k < 0) (hd : ¬ carriesData f) :
    mergeFragment e f = some e := by
  unfold carriesData at hd
  simp only [not_or, not_not] at hd
  simp [mergeFragment, h, hk, hd.1, hd.2.1, hd.2.2.1, hd.2.2.2]

theorem mergeFragment_nonneg (e : List ToolCall) (f : ToolCall) (k : Int)
    (h : f.Index = some k) (hk : 0 ≤ k) :
    mergeFragment e f
      = some (modifyAt (fun tc => applyDelta tc f) (growTo e k) k.toNat) := by
  simp [mergeFragment, h, not_lt.mpr hk]

theorem entry_merged (e : List ToolCall) (f : ToolCall) (k : Int) (i : Nat) :
    entry (modifyAt (fun tc => applyDelta tc f) (growTo e k) k.toNat) i
      = if i = k.toNat then applyDelta (entry e i) f else entry e i := by
  have hk : k.toNat < (growTo e k).length := by rw [length_growTo]; omega
  unfold entry
  rw [getD_modifyAt _ _ _ _ _ hk]
  have := entry_growTo e k i
  unfold entry at this
  rw [this]

theorem length_merged (e : List ToolCall) (f : ToolCall) (k : Int) :
    (modifyAt (fun tc => applyDelta tc f) (growTo e k) k.toNat).length
      = max e.length (k.toNat + 1) := by
  rw [length_modifyAt, length_growTo]

theorem applyDelta_arguments (tc d : ToolCall) :
    (applyDelta tc d).Function.Arguments = tc.Function.Arguments ++ d.Function.Arguments := by
  unfold applyDelta
  by_cases h1 : d.ID = "" <;> by_cases h2 : d.Typ = "" <;>
    by_cases h3 : d.Function.Name = "" <;> by_cases h4 : d.Function.Arguments = "" <;>
    simp [h1, h2, h3, h4]

theorem applyDelta_name (tc d : ToolCall) :
    (applyDelta tc d).Function.Name = tc.Function.Name ++ d.Function.Name := by
  unfold applyDelta
  by_cases h1 : d.ID = "" <;> by_cases h2 : d.Typ = "" <;>
    by_cases h3 : d.Function.Name = "" <;> by_cases h4 : d.Function.Arguments = "" <;>
    simp [h1, h2, h3, h4]

theorem applyDelta_id (tc d : ToolCall) :
    (applyDelta tc d).ID = if d.ID ≠ "" then d.ID else tc.ID := by
  unfold applyDelta
  by_cases h1 : d.ID = "" <;> by_cases h2 : d.Typ = "" <;>
    by_cases h3 : d.Function.Name = "" <;> by_cases h4 : d.Function.Arguments = "" <;>
    simp [h1, h2, h3, h4]

theorem accumulateToolCalls_none_iff (existing delta : List ToolCall) :
    accumulateToolCalls existing delta = none
      ↔ ∃ f ∈ delta, ∃ k : Int, f.Index = some k ∧ k < 0 ∧ carriesData f := by
  induction delta generalizing existing with
  | nil => simp [accumulateToolCalls]
  | cons f rest ih =>
    cases hidx : f.Index with
    | none =>
      simp only [accumulateToolCalls, mergeFragment_nil_index existing f hidx, ih,
        List.mem_cons, exists_eq_or_imp, hidx]
      simp
    | some k =>
      by_cases hk : k < 0
      · by_cases hd : carriesData f
        · simp only [accumulateToolCalls, mergeFragment_neg existing f k hidx hk hd, true_iff]
          exact ⟨f, List.mem_cons_self _ _, k, hidx, hk, hd⟩
        · simp only [accumulateToolCalls, mergeFragment_neg_skip existing f k hidx hk hd, ih,
            List.mem_cons, exists_eq_or_imp, hidx]
          simp [hd]
      · simp only [accumulateToolCalls, mergeFragment_nonneg existing f k hidx (not_lt.mp hk), ih,
          List.mem_cons, exists_eq_or_imp, hidx]
        simp [hk]

/-- Feeding the fragments in several calls, chunk by chunk, is the same as feeding them
in one call. -/
theorem accumulateToolCalls_append (existing d1 d2 : List ToolCall) :
    accumulateToolCalls existing (d1 ++ d2)
      = (accumulateToolCalls existing d1).bind (fun e => accumulateToolCalls e d2) := by
  induction d1 generalizing existing with
  | nil => rfl
  | cons f rest ih =>
    simp only [List.cons_append, accumulateToolCalls]
    cases mergeFragment existing f with
    | none => rfl
    | some e => exact ih e

theorem fragmentsFor_cons (i : Nat) (f : ToolCall) (rest : List ToolCall) :
    fragmentsFor i (f :: rest)
      = if f.Index = some (i : Int) then f :: fragmentsFor i rest else fragmentsFor i rest := by
  unfold fragmentsFor
  by_cases h : f.Index = some (i : Int) <;> simp [List.filter_cons, h]

/-- Entry `i` of the result is entry `i` of `existing` with the fragments addressed to `i`
merged into it, in arrival order; nothing else influences it. -/
theorem entry_accumulateToolCalls (existing delta r : List ToolCall)
    (h : accumulateToolCalls existing delta = some r) (i : Nat) :
    entry r i = (fragmentsFor i delta).foldl applyDelta (entry existing i) := by
  induction delta generalizing existing with
  | nil =>
    simp only [accumulateToolCalls, Option.some.injEq] at h
    subst h; rfl
  | cons f rest ih =>
    rw [fragmentsFor_cons]
    cases hidx : f.Index with
    | none =>
      simp only [accumulateToolCalls, mergeFragment_nil_index existing f hidx] at h
      simpa using ih existing h
    | some k =>
      by_cases hk : k < 0
      · by_cases hd : carriesData f
        · simp [accumulateToolCalls, mergeFragment_neg existing f k hidx hk hd] at h
        · simp only [accumulateToolCalls, mergeFragment_neg_skip existing f k hidx hk hd] at h
          have hne : ¬ (k = (i : Int)) := by omega
          simpa [hne] using ih existing h
      · have hk0 : 0 ≤ k := not_lt.mp hk
        simp only [accumulateToolCalls, mergeFragment_nonneg existing f k hidx hk0] at h
        rw [ih _ h, entry_merged]
        by_cases hik : k = (i : Int)
        · subst hik
          simp
        · have : i ≠ k.toNat := by omega
          simp [hik, this]

theorem foldl_applyDelta_arguments (fs : List ToolCall) (tc : ToolCall) :
    (fs.foldl applyDelta tc).Function.Arguments
      = tc.Function.Arguments ++ concatAll (fs.map (fun f => f.Function.Arguments)) := by
  induction fs generalizing tc with
  | nil => simp [concatAll]
  | cons f rest ih =>
    simp only [List.foldl_cons, List.map_cons, concatAll, ih, applyDelta_arguments,
      String.append_assoc]

theorem foldl_applyDelta_name (fs : List ToolCall) (tc : ToolCall) :
    (fs.foldl applyDelta tc).Function.Name
      = tc.Function.Name ++ concatAll (fs.map (fun f => f.Function.Name)) := by
  induction fs generalizing tc with
  | nil => simp [concatAll]
  | cons f rest ih =>
    simp only [List.foldl_cons, List.map_cons, concatAll, ih, applyDelta_name,
      String.append_assoc]

theorem foldl_applyDelta_id (fs : List ToolCall) (tc : ToolCall) :
    (fs.foldl applyDelta tc).ID = lastNonEmpty tc.ID (fs.map (fun f => f.ID)) := by
  induction fs generalizing tc with
  | nil => rfl
  | cons f rest ih =>
    simp only [List.foldl_cons, List.map_cons, lastNonEmpty, ih, applyDelta_id]

/-- C1. `accumulateToolCalls` panics exactly when some fragment has a negative index and a
non-empty `id`, `type`, `name` or `arguments` (a fragment with a negative index that
carries nothing is skipped). Whenever it returns, for every index `i` of the merged
sequence the `arguments` of entry `i` are the previous arguments followed by the
concatenation, in arrival order, of the `arguments` of exactly the fragments addressed to
`i`, and likewise for `name`: both fields are only ever appended to. -/
theorem accumulateToolCalls_appends (existing delta : List ToolCall) :
    (accumulateToolCalls existing delta = none
        ↔ ∃ f ∈ delta, ∃ k : Int, f.Index = some k ∧ k < 0 ∧ carriesData f) ∧
    ∀ r, accumulateToolCalls existing delta = some r → ∀ i : Nat,
      (entry r i).Function.Arguments
          = (entry existing i).Function.Arguments
            ++ concatAll ((fragmentsFor i delta).map (fun f => f.Function.Arguments)) ∧
      (entry r i).Function.Name
          = (entry existing i).Function.Name
            ++ concatAll ((fragmentsFor i delta).map (fun f => f.Function.Name)) := by
  refine ⟨accumulateToolCalls_none_iff existing delta, fun r h i => ?_⟩
  rw [entry_accumulateToolCalls existing delta r h i]
  exact ⟨foldl_applyDelta_arguments _ _, foldl_applyDelta_name _ _⟩

theorem accumulateToolCalls_appends_witness :
    (entry sampleMerged 0).Function.Arguments
        = (entry [] 0).Function.Arguments
          ++ concatAll ((fragmentsFor 0 sampleWithStray).map (fun f => f.Function.Arguments)) ∧
    (entry sampleMerged 0).Function.Name
        = (entry [] 0).Function.Name
          ++ concatAll ((fragmentsFor 0 sampleWithStray).map (fun f => f.Function.Name)) :=
  (accumulateToolCalls_appends [] sampleWithStray).2 sampleMerged (by decide) 0

/-- C2 as stated fails: two fragments for index 0 with ids `call_a` then `call_b`
leave the merged id at `call_b`, which is not the first non-empty id seen. -/
theorem id_first_nonEmpty_fails :
    ¬ (∀ (delta r : List ToolCall) (i : Nat),
        (∀ f ∈ delta, f.Index = some (i : Int)) →
        accumulateToolCalls [] delta = some r →
        (entry r i).ID = firstNonEmpty (delta.map (fun f => f.ID))) := by
  intro h
  have h0 := h twoIdsDelta
    [{ Index := none, ID := "call_b", Typ := "function",
       Function := { Name := "read_file", Arguments := "ab" } }] 0 (by decide) (by decide)
  revert h0
  decide

/-- C2, amended. When no fragment carries a negative index, `accumulateToolCalls` returns,
and the `id` of every entry `i` is the last non-empty `id` among the fragments addressed
to `i`, or the previous `id` of that entry when those fragments carry none: a non-empty
`id` always overwrites. -/
theorem accumulateToolCalls_id_last (existing delta : List ToolCall)
    (hidx : ∀ f ∈ delta, ∀ k : Int, f.Index = some k → 0 ≤ k) :
    ∃ r, accumulateToolCalls existing delta = some r ∧
      ∀ i : Nat, (entry r i).ID
        = lastNonEmpty (entry existing i).ID ((fragmentsFor i delta).map (fun f => f.ID)) := by
  cases h : accumulateToolCalls existing delta with
  | none =>
    obtain ⟨f, hf, k, hk, hneg, _⟩ := (accumulateToolCalls_none_iff existing delta).mp h
    have := hidx f hf k hk
    omega
  | some r =>
    refine ⟨r, rfl, fun i => ?_⟩
    rw [entry_accumulateToolCalls existing delta r h i, foldl_applyDelta_id]

theorem accumulateToolCalls_id_last_witness :
    ∃ r, accumulateToolCalls [] twoIdsDelta = some r ∧
      ∀ i : Nat, (entry r i).ID
        = lastNonEmpty (entry [] i).ID ((fragmentsFor i twoIdsDelta).map (fun f => f.ID)) :=
  accumulateToolCalls_id_last [] twoIdsDelta (by decide)

/-! ## Session history -/

theorem TrimHistory_short (s : Session) (h : s.History.length ≤ maxHistory) :
    s.TrimHistory = s := by
  simp [Session.TrimHistory, h]

theorem TrimHistory_long (s : Session) (m : Message) (rest : List Message)
    (hs : s.History = m :: rest) (h : maxHistory < s.History.length) :
    s.TrimHistory = { History := m :: s.History.drop (s.History.length - 19) } := by
  have h2 : ¬ s.History.length ≤ maxHistory := not_le.mpr h
  unfold Session.TrimHistory
  rw [if_neg h2]
  rw [hs]
  rfl

theorem length_longHistory (n : Nat) : (longHistory n).length = n + 1 := by
  induction n with
  | zero => rfl
  | succ k ih => simp [longHistory, ih]

/-- C5. When the history holds more than 20 messages, `TrimHistory` replaces it with its
first message followed by its last 19 messages in their original order, 20 messages in
all; when it holds at most 20 messages, `TrimHistory` changes nothing. -/
theorem TrimHistory_spec (s : Session) :
    (20 < s.History.length →
      ∃ first, s.History[0]? = some first ∧
        s.TrimHistory.History = first :: s.History.drop (s.History.length - 19) ∧
        s.TrimHistory.History.length = 20) ∧
    (s.History.length ≤ 20 → s.TrimHistory = s) := by
  refine ⟨fun h => ?_, fun h => TrimHistory_short s h⟩
  cases hs : s.History with
  | nil => rw [hs] at h; simp at h
  | cons m rest =>
    refine ⟨m, by simp, ?_, ?_⟩
    · rw [TrimHistory_long s m rest hs h, hs]
    · rw [TrimHistory_long s m rest hs h]
      simp only [List.length_cons, List.length_drop]
      omega

theorem TrimHistory_spec_witness :
    (∃ first, (longHistory 24)[0]? = some first ∧
        (Session.TrimHistory ⟨longHistory 24⟩).History
          = first :: (longHistory 24).drop ((longHistory 24).length - 19) ∧
        (Session.TrimHistory ⟨longHistory 24⟩).History.length = 20) ∧
    Session.TrimHistory ⟨longHistory 3⟩ = ⟨longHistory 3⟩ :=
  ⟨(TrimHistory_spec ⟨longHistory 24⟩).1 (by simp [length_longHistory]),
   (TrimHistory_spec ⟨longHistory 3⟩).2 (by simp [length_longHistory])⟩

theorem applyOp_keeps_first (s : Session) (op : SessionOp) (rest : List Message)
    (h : s.History = systemMessage :: rest) :
    ∃ rest2, (applyOp s op).History = systemMessage :: rest2 := by
  cases op with
  | addUser c =>
    exact ⟨rest ++ [_], by simp [applyOp, Session.AddUserMessage, Session.AddMessage, h]; rfl⟩
  | addAssistant c tcs =>
    exact ⟨rest ++ [_], by simp [applyOp, Session.AddAssistantMessage, Session.AddMessage, h]; rfl⟩
  | addTool i c =>
    exact ⟨rest ++ [_], by simp [applyOp, Session.AddToolMessage, Session.AddMessage, h]; rfl⟩
  | addFile p c =>
    exact ⟨rest ++ [_], by simp [applyOp, Session.AddFileToContext, h]; rfl⟩
  | trim =>
    by_cases hl : s.History.length ≤ maxHistory
    · exact ⟨rest, by simp [applyOp, TrimHistory_short s hl, h]⟩
    · exact ⟨_, by simp only [applyOp, TrimHistory_long s _ rest h (not_le.mp hl)]; rfl⟩
  | reset =>
    refine ⟨[], ?_⟩
    simp only [applyOp, Session.Reset, h]
    simp [systemMessage]

/-- C6. After any sequence of `AddUserMessage`, `AddAssistantMessage`, `AddToolMessage`,
`AddFileToContext`, `TrimHistory` and `Reset` applied to a new session, the history is
non-empty and its first message is the original system message. -/
theorem first_message_is_system (ops : List SessionOp) :
    ∃ rest, (runOps NewSession ops).History = systemMessage :: rest := by
  have key : ∀ (ops : List SessionOp) (s : Session) (rest : List Message),
      s.History = systemMessage :: rest →
      ∃ rest2, (runOps s ops).History = systemMessage :: rest2 := by
    intro ops
    induction ops with
    | nil => intro s rest h; exact ⟨rest, h⟩
    | cons op more ih =>
      intro s rest h
      obtain ⟨rest1, h1⟩ := applyOp_keeps_first s op rest h
      exact ih (applyOp s op) rest1 h1
  exact key ops NewSession [] rfl

/-- C7. Whatever the prior history (empty and malformed ones included), after `Reset` the
history has exactly one message and that message has role `system`; when the prior
history started with a system message, that very message is the one kept. -/
theorem Reset_spec (s : Session) :
    s.Reset.History.length = 1 ∧
    (∀ m ∈ s.Reset.History, m.Role = "system") ∧
    (∀ first rest, s.History = first :: rest → first.Role = "system" →
      s.Reset.History = [first]) := by
  cases hs : s.History with
  | nil => simp [Session.Reset, hs, systemMessage]
  | cons m rest =>
    by_cases hr : m.Role = "system"
    · simp [Session.Reset, hs, hr]
    · simp only [Session.Reset, hs, if_neg hr]
      refine ⟨rfl, ?_, ?_⟩
      · simp [systemMessage]
      · intro first rest2 h hfirst
        simp only [List.cons.injEq] at h
        rw [← h.1] at hfirst
        exact absurd hfirst hr

theorem Reset_spec_witness :
    (Session.Reset ⟨longHistory 3⟩).History = [systemMessage] ∧
    (Session.Reset ⟨[]⟩).History.length = 1 ∧
    (∀ m ∈ (Session.Reset ⟨[userMessage "a", systemMessage]⟩).History, m.Role = "system") :=
  ⟨(Reset_spec ⟨longHistory 3⟩).2.2 systemMessage
      [userMessage "1", userMessage "2", userMessage "3"] rfl rfl,
   (Reset_spec ⟨[]⟩).1,
   (Reset_spec ⟨[userMessage "a", systemMessage]⟩).2.1⟩

/-- C8. `TrimHistory` is idempotent, and it keeps the first message of the history
(so the first message of a non-empty history is never removed). -/
theorem TrimHistory_idempotent (s : Session) :
    s.TrimHistory.TrimHistory = s.TrimHistory ∧
    s.TrimHistory.History.head? = s.History.head? := by
  by_cases hl : s.History.length ≤ maxHistory
  · rw [TrimHistory_short s hl]
    exact ⟨TrimHistory_short s hl, rfl⟩
  · cases hs : s.History with
    | nil => rw [hs] at hl; simp at hl
    | cons m rest =>
      have hlong := TrimHistory_long s m rest hs (not_le.mp hl)
      constructor
      · apply TrimHistory_short
        rw [hlong]
        simp only [List.length_cons, List.length_drop, maxHistory]
        simp only [maxHistory] at hl
        omega
      · rw [hlong]; rfl

/-! ## Text search and replacement -/

theorem Index_nil_sub (s : List Char) : Index s [] = some 0 := by
  cases s <;> simp [Index]

theorem Index_eq_none_iff (s sub : List Char) : Index s sub = none ↔ ¬ sub <:+: s := by
  induction s with
  | nil =>
    by_cases h : sub = []
    · simp [Index, h]
    · simp [Index, h]
  | cons c t ih =>
    unfold Index
    by_cases hp : sub.isPrefixOf (c :: t) = true
    · simp only [hp, if_true]
      have : sub <+: c :: t := List.isPrefixOf_iff_prefix.mp hp
      simp [this.isInfix]
    · simp only [hp]
      have hnp : ¬ sub <+: c :: t := fun h => hp (List.isPrefixOf_iff_prefix.mpr h)
      simp only [Bool.false_eq_true, if_false, Option.map_eq_none', ih]
      rw [List.infix_cons_iff]
      simp [hnp]

theorem Index_eq_some (s sub : List Char) (i : Nat) (h : Index s sub = some i) :
    sub <+: s.drop i ∧ i ≤ s.length ∧ ∀ A B, s = A ++ sub ++ B → i ≤ A.length := by
  induction s generalizing i with
  | nil =>
    by_cases hs : sub = []
    · simp [Index, hs] at h
      subst h; simp [hs]
    · simp [Index, hs] at h
  | cons c t ih =>
    unfold Index at h
    by_cases hp : sub.isPrefixOf (c :: t) = true
    · simp only [hp, if_true, Option.some.injEq] at h
      subst h
      exact ⟨List.isPrefixOf_iff_prefix.mp hp, Nat.zero_le _, fun _ _ _ => Nat.zero_le _⟩
    · simp only [hp, Bool.false_eq_true, if_false, Option.map_eq_some'] at h
      obtain ⟨j, hj, rfl⟩ := h
      obtain ⟨h1, h2, h3⟩ := ih j hj
      refine ⟨by simpa using h1, by simpa using h2, ?_⟩
      intro A B hAB
      cases A with
      | nil =>
        exfalso
        apply hp
        apply List.isPrefixOf_iff_prefix.mpr
        exact ⟨B, by simpa using hAB.symm⟩
      | cons a A2 =>
        simp only [List.cons_append, List.cons.injEq] at hAB
        have := h3 A2 B hAB.2
        simp only [List.length_cons]
        omega

theorem countLoop_fuel (sub : List Char) (hsub : sub ≠ []) (f : Nat) (s : List Char) (n : Nat)
    (hf : s.length < f) : countLoop sub (f + 1) s n = countLoop sub f s n := by
  induction f generalizing s n with
  | zero => omega
  | succ k ih =>
    rw [countLoop]
    conv => rhs; rw [countLoop]
    cases hI : Index s sub with
    | none => rfl
    | some i =>
      simp only []
      apply ih
      have hne : s ≠ [] := by
        intro hs
        subst hs
        simp [Index, hsub] at hI
      have : 0 < s.length := List.length_pos.mpr hne
      have hl : 0 < sub.length := List.length_pos.mpr hsub
      simp only [List.length_drop]
      omega

theorem Index_of_unique (A S B : List Char) (hS : S ≠ [])
    (huniq : ∀ A2 B2, A ++ S ++ B = A2 ++ S ++ B2 → A2 = A) :
    Index (A ++ S ++ B) S = some A.length ∧ Index B S = none := by
  constructor
  · cases hI : Index (A ++ S ++ B) S with
    | none =>
      exact absurd ⟨A, B, rfl⟩ ((Index_eq_none_iff _ _).mp hI)
    | some i =>
      obtain ⟨⟨t, ht⟩, hi, _⟩ := Index_eq_some _ _ _ hI
      have hsplit : A ++ S ++ B = (A ++ S ++ B).take i ++ S ++ t := by
        rw [List.append_assoc _ S t, ht, List.take_append_drop]
      have := huniq _ _ hsplit
      have hlen := congrArg List.length this
      rw [List.length_take] at hlen
      rw [← hlen, Nat.min_eq_left hi]
  · rw [Index_eq_none_iff]
    rintro ⟨B1, B2, hB⟩
    have hsplit : A ++ S ++ B = (A ++ S ++ B1) ++ S ++ B2 := by
      rw [← hB]; simp [List.append_assoc]
    have := congrArg List.length (huniq _ _ hsplit)
    have hl : 0 < S.length := List.length_pos.mpr hS
    simp only [List.length_append] at this
    omega

theorem countLoop_of_unique (A S B : List Char) (hS : S ≠ [])
    (huniq : ∀ A2 B2, A ++ S ++ B = A2 ++ S ++ B2 → A2 = A) :
    countLoop S ((A ++ S ++ B).length + 1) (A ++ S ++ B) 0 = 1 := by
  obtain ⟨h1, h2⟩ := Index_of_unique A S B hS huniq
  have hl : 0 < S.length := List.length_pos.mpr hS
  have hdrop : (A ++ S ++ B).drop (A.length + S.length) = B := by
    rw [← List.length_append]; exact List.drop_left' rfl
  rw [countLoop, h1]
  simp only [hdrop]
  obtain ⟨k, hk⟩ : ∃ k, (A ++ S ++ B).length = k + 1 := by
    refine ⟨(A ++ S ++ B).length - 1, ?_⟩
    simp only [List.length_append]; omega
  rw [hk, countLoop, h2]

theorem replaceLoop_of_unique (A S B N : List Char) (hS : S ≠ [])
    (huniq : ∀ A2 B2, A ++ S ++ B = A2 ++ S ++ B2 → A2 = A) :
    replaceLoop (A ++ S ++ B) S N 1 0 0 [] = A ++ N ++ B := by
  obtain ⟨h1, _⟩ := Index_of_unique A S B hS huniq
  have hl : S.length ≠ 0 := (List.length_pos.mpr hS).ne'
  have hdrop : (A ++ S ++ B).drop (A.length + S.length) = B := by
    rw [← List.length_append]; exact List.drop_left' rfl
  have htake : (A ++ S ++ B).take A.length = A := by
    rw [List.append_assoc]; exact List.take_left' rfl
  rw [replaceLoop]
  simp only [hl, if_false, List.drop_zero, h1, replaceLoop, Nat.zero_add, hdrop, htake,
    List.nil_append]

theorem Count_Replace_of_unique (A S B N : String)
    (huniq : ∀ A2 B2 : String, A ++ S ++ B = A2 ++ S ++ B2 → A2 = A) :
    Count (A ++ S ++ B) S = 1 ∧ Replace (A ++ S ++ B) S N 1 = A ++ N ++ B := by
  have hdata : (A ++ S ++ B).data = A.data ++ S.data ++ B.data := by
    simp [String.data_append]
  by_cases hS : S.data = []
  · -- the empty snippet occurs once only in the empty text
    have hSe : S = "" := String.ext hS
    subst hSe
    have hA : A = "" := (huniq "" (A ++ "" ++ B) (by simp)).symm
    have hAll : A ++ "" ++ B = A := huniq (A ++ "" ++ B) "" (by simp)
    subst hA
    have hB : B = "" := by simpa using hAll
    subst hB
    refine ⟨by decide, ?_⟩
    by_cases hN : N = ""
    · subst hN; decide
    · have hN2 : ¬ ("" = N) := fun h => hN h.symm
      apply String.ext
      simp [Replace, hN2, Count, replaceLoop]
  · have hl : S.data.length ≠ 0 := (List.length_pos.mpr hS).ne'
    have hu : ∀ A2 B2, A.data ++ S.data ++ B.data = A2 ++ S.data ++ B2 → A2 = A.data := by
      intro A2 B2 h
      have := huniq ⟨A2⟩ ⟨B2⟩ (String.ext (by simpa [String.data_append] using h))
      rw [← this]
    have hc : Count (A ++ S ++ B) S = 1 := by
      unfold Count
      rw [if_neg hl, hdata]
      exact countLoop_of_unique _ _ _ hS hu
    refine ⟨hc, ?_⟩
    unfold Replace
    by_cases hN : S = N
    · subst hN; simp
    · simp only [hN, false_or, hc]
      apply String.ext
      simp only [hdata]
      norm_num
      rw [← List.append_assoc, replaceLoop_of_unique _ _ _ _ hS hu]
      simp

/-! ## The `edit_file` tool -/

theorem mem_occurrencePositions (c s : String) (A2 B2 : List Char)
    (h : c.data = A2 ++ s.data ++ B2) : A2.length ∈ occurrencePositions c s := by
  unfold occurrencePositions
  rw [List.mem_filter]
  constructor
  · rw [List.mem_range, h]
    simp only [List.length_append]
    omega
  · rw [h, List.append_assoc, List.drop_left' rfl]
    exact List.isPrefixOf_iff_prefix.mpr ⟨B2, rfl⟩

/-- A snippet with a single occurrence position splits the content in one way only. -/
theorem unique_split_of_positions (A S B : String)
    (hocc : (occurrencePositions (A ++ S ++ B) S).length = 1) :
    ∀ A2 B2 : String, A ++ S ++ B = A2 ++ S ++ B2 → A2 = A := by
  intro A2 B2 h
  obtain ⟨p, hp⟩ := List.length_eq_one.mp hocc
  have h1 : A.data.length ∈ occurrencePositions (A ++ S ++ B) S :=
    mem_occurrencePositions _ _ A.data B.data (by simp [String.data_append])
  have h2 : A2.data.length ∈ occurrencePositions (A ++ S ++ B) S :=
    mem_occurrencePositions _ _ A2.data B2.data (by rw [h]; simp [String.data_append])
  rw [hp, List.mem_singleton] at h1 h2
  have hlen : A2.data.length = A.data.length := by rw [h1, h2]
  have hd : A.data ++ (S.data ++ B.data) = A2.data ++ (S.data ++ B2.data) := by
    have := congrArg String.data h
    simpa [String.data_append] using this
  exact String.ext (List.append_inj_left hd hlen.symm).symm

theorem toolEditFile_of_count_one {W : Type} (env : Env W) (w w1 : W)
    (arguments path absPath content S N : String)
    (hargs : env.unmarshalEditFile arguments = .ok ⟨path, S, N⟩)
    (habs : env.Abs path = .ok absPath)
    (hsafe : Strings.Contains absPath ".." = false)
    (hread : env.ReadFile w absPath = .ok content)
    (hmkdir : env.MkdirAll w (env.Dir absPath) = (none, w1))
    (hwrite : ∀ c, (env.WriteFile w1 absPath c).1 = none)
    (hcount : Count content S = 1) :
    toolEditFile env arguments w
      = (⟨"Successfully applied edit to file \'" ++ path ++ "\'", none⟩,
         (env.WriteFile w1 absPath (Replace content S N 1)).2) := by
  have hw := hwrite (Replace content S N 1)
  have hnorm : normalizePath env path = .ok absPath := by
    simp [normalizePath, habs, hsafe]
  have hrd : readLocalFile env w path = .ok content := by
    simp [readLocalFile, hnorm, hread]
  have hcf : createFile env w path (Replace content S N 1)
      = (none, (env.WriteFile w1 absPath (Replace content S N 1)).2) := by
    simp only [createFile, hnorm, hmkdir]
    rw [← hw]
  simp only [toolEditFile, hargs, hrd, hcount, hcf]
  simp

/-- C9. Let a file be readable (its path resolves, has no `..`, and reads as `A ++ S ++ B`)
and writable (its directory can be made and writes to it succeed), and let the snippet `S`
occur in that content at exactly one position. Then `edit_file(path, S, N)` succeeds and
the content written back is `A ++ N ++ B`. -/
theorem toolEditFile_unique_snippet {W : Type} (env : Env W) (w w1 : W)
    (arguments path absPath A S B N : String)
    (hargs : env.unmarshalEditFile arguments = .ok ⟨path, S, N⟩)
    (habs : env.Abs path = .ok absPath)
    (hsafe : Strings.Contains absPath ".." = false)
    (hread : env.ReadFile w absPath = .ok (A ++ S ++ B))
    (hmkdir : env.MkdirAll w (env.Dir absPath) = (none, w1))
    (hwrite : ∀ c, (env.WriteFile w1 absPath c).1 = none)
    (hocc : (occurrencePositions (A ++ S ++ B) S).length = 1) :
    toolEditFile env arguments w
      = (⟨"Successfully applied edit to file \'" ++ path ++ "\'", none⟩,
         (env.WriteFile w1 absPath (A ++ N ++ B)).2) := by
  obtain ⟨hcount, hrepl⟩ :=
    Count_Replace_of_unique A S B N (unique_split_of_positions A S B hocc)
  rw [toolEditFile_of_count_one env w w1 arguments path absPath (A ++ S ++ B) S N
    hargs habs hsafe hread hmkdir hwrite hcount, hrepl]

theorem toolEditFile_unique_snippet_witness :
    toolEditFile testEnv editWorldJSON sampleFiles
      = (⟨"Successfully applied edit to file \'/tmp/a.txt\'", none⟩,
         [("/tmp/a.txt", "hello there")]) :=
  toolEditFile_unique_snippet testEnv sampleFiles sampleFiles editWorldJSON "/tmp/a.txt"
    "/tmp/a.txt" "hello " "world" "" "there" rfl rfl (by decide) rfl rfl (fun _ => rfl)
    (by decide)

/-- When `strings.Count` finds the snippet more than once, `edit_file` fails with the
ambiguous-edit error and leaves the world as it was. -/
theorem toolEditFile_ambiguous {W : Type} (env : Env W) (w : W)
    (arguments path absPath content S N : String)
    (hargs : env.unmarshalEditFile arguments = .ok ⟨path, S, N⟩)
    (habs : env.Abs path = .ok absPath)
    (hsafe : Strings.Contains absPath ".." = false)
    (hread : env.ReadFile w absPath = .ok content)
    (hcount : 1 < Count content S) :
    toolEditFile env arguments w
      = (⟨"", some ("ambiguous edit: " ++ toString (Count content S)
            ++ " matches found for the snippet")⟩, w) := by
  have hnorm : normalizePath env path = .ok absPath := by
    simp [normalizePath, habs, hsafe]
  have hrd : readLocalFile env w path = .ok content := by
    simp [readLocalFile, hnorm, hread]
  have h0 : Count content S ≠ 0 := by omega
  simp only [toolEditFile, hargs, hrd, h0, if_false, gt_iff_lt, hcount, if_true]

/-- C10, at the failing input. The snippet `aa` occurs in the content `aaa` at the two
positions 0 and 1, yet `edit_file` does not report an ambiguous edit: `strings.Count`
counts one non-overlapping instance, the edit succeeds and the file becomes `ba`. -/
theorem toolEditFile_overlapping_accepted :
    occurrencePositions "aaa" "aa" = [0, 1] ∧
    Count "aaa" "aa" = 1 ∧
    toolEditFile testEnv editAaJSON [("/tmp/a.txt", "aaa")]
      = (⟨"Successfully applied edit to file \'/tmp/a.txt\'", none⟩,
         [("/tmp/a.txt", "ba")]) := by
  decide

/-! ## The agent loop -/

theorem executeToolCall_spec {W : Type} (ui : UI) (registry : Registry W) (st : AgentState W)
    (tc : ToolCall) :
    (executeToolCall ui registry st tc).session.History
        = st.session.History ++
          [toolMessage tc (Execute registry tc.Function.Name tc.Function.Arguments st.world).1] ∧
    (executeToolCall ui registry st tc).world
        = (Execute registry tc.Function.Name tc.Function.Arguments st.world).2 ∧
    (executeToolCall ui registry st tc).requests = st.requests := by
  unfold executeToolCall
  rcases hE : Execute registry tc.Function.Name tc.Function.Arguments st.world with ⟨⟨res, err⟩, w2⟩
  cases err with
  | none => exact ⟨rfl, rfl, rfl⟩
  | some e => exact ⟨rfl, rfl, rfl⟩

theorem foldl_executeToolCall {W : Type} (ui : UI) (registry : Registry W)
    (toolCalls : List ToolCall) (st : AgentState W) :
    (toolCalls.foldl (executeToolCall ui registry) st).session.History
        = st.session.History ++
          List.zipWith toolMessage toolCalls (toolResults registry st.world toolCalls) ∧
    (toolCalls.foldl (executeToolCall ui registry) st).world
        = worldAfter registry st.world toolCalls ∧
    (toolCalls.foldl (executeToolCall ui registry) st).requests = st.requests := by
  induction toolCalls generalizing st with
  | nil => simp [toolResults, worldAfter]
  | cons tc rest ih =>
    obtain ⟨h1, h2, h3⟩ := executeToolCall_spec ui registry st tc
    obtain ⟨i1, i2, i3⟩ := ih (executeToolCall ui registry st tc)
    simp only [List.foldl_cons, toolResults, worldAfter, List.zipWith_cons_cons]
    refine ⟨?_, ?_, ?_⟩
    · rw [i1, h1, h2]; simp
    · rw [i2, h2]
    · rw [i3, h3]

theorem length_toolResults {W : Type} (registry : Registry W) (toolCalls : List ToolCall)
    (w : W) : (toolResults registry w toolCalls).length = toolCalls.length := by
  induction toolCalls generalizing w with
  | nil => rfl
  | cons tc rest ih => simp [toolResults, ih]

theorem executeToolCalls_spec {W : Type} (ui : UI) (registry : Registry W)
    (toolCalls : List ToolCall) (st : AgentState W) :
    (executeToolCalls ui registry st toolCalls).session.History
        = st.session.History ++
          List.zipWith toolMessage toolCalls (toolResults registry st.world toolCalls) ∧
    (executeToolCalls ui registry st toolCalls).world
        = worldAfter registry st.world toolCalls ∧
    (executeToolCalls ui registry st toolCalls).requests = st.requests := by
  unfold executeToolCalls
  exact foldl_executeToolCall ui registry toolCalls _

theorem AddAssistantMessage_history (s : Session) (content : String)
    (toolCalls : List ToolCall) :
    (s.AddAssistantMessage content toolCalls).History
      = s.History ++ [assistantMessage content toolCalls] := by
  cases toolCalls with
  | nil => rfl
  | cons c cs => simp [Session.AddAssistantMessage, Session.AddMessage, assistantMessage]

/-- What one round does when the provider answers with a stream that ends normally. -/
theorem round_of_eof {W : Type} (ui : UI) (registry : Registry W) (provider : LLMProvider)
    (i : Nat) (st : AgentState W) (stream : ChatCompletionStream) (fullResponse : String)
    (toolCalls : List ToolCall) (tokens : List String)
    (hcall : provider.CreateChatCompletionStream i (requestOf provider st.session) = .ok stream)
    (hrecv : recvLoop stream.err stream.responses "" [] [] = .eof fullResponse toolCalls tokens) :
    ∃ st2 : AgentState W,
      st2.session.History
        = st.session.TrimHistory.History ++ [assistantMessage fullResponse toolCalls]
          ++ List.zipWith toolMessage toolCalls (toolResults registry st.world toolCalls) ∧
      st2.world = worldAfter registry st.world toolCalls ∧
      st2.requests = st.requests ++ [requestOf provider st.session] ∧
      (toolCalls = [] → round ui registry provider i st = .stop st2 .finished) ∧
      (toolCalls ≠ [] → round ui registry provider i st = .next st2) := by
  have hround : round ui registry provider i st
      = if toolCalls.length > 0 then
          .next (executeToolCalls ui registry
            { session := st.session.TrimHistory.AddAssistantMessage fullResponse toolCalls,
              world := st.world, output := st.output ++ tokens,
              requests := st.requests ++ [requestOf provider st.session] } toolCalls)
        else
          .stop { session := st.session.TrimHistory.AddAssistantMessage fullResponse toolCalls,
                  world := st.world, output := st.output ++ tokens,
                  requests := st.requests ++ [requestOf provider st.session] } .finished := by
    unfold requestOf at hcall
    simp only [round, hcall, hrecv]
    rfl
  cases toolCalls with
  | nil =>
    refine ⟨{ session := st.session.TrimHistory.AddAssistantMessage fullResponse [],
              world := st.world, output := st.output ++ tokens,
              requests := st.requests ++ [requestOf provider st.session] },
      ?_, rfl, rfl, fun _ => ?_, fun h => absurd rfl h⟩
    · simp [AddAssistantMessage_history]
    · rw [hround]; rfl
  | cons c cs =>
    refine ⟨executeToolCalls ui registry
        { session := st.session.TrimHistory.AddAssistantMessage fullResponse (c :: cs),
          world := st.world, output := st.output ++ tokens,
          requests := st.requests ++ [requestOf provider st.session] } (c :: cs),
      ?_, ?_, ?_, fun h => by simp at h, fun _ => ?_⟩
    · rw [(executeToolCalls_spec ui registry _ _).1]
      simp [AddAssistantMessage_history]
    · rw [(executeToolCalls_spec ui registry _ _).2.1]
    · rw [(executeToolCalls_spec ui registry _ _).2.2]
    · rw [hround, if_pos (by simp)]

theorem round_requests {W : Type} (ui : UI) (registry : Registry W) (provider : LLMProvider)
    (i : Nat) (st : AgentState W) :
    (∀ st2, round ui registry provider i st = .next st2 →
      st2.requests.length = st.requests.length + 1) ∧
    (∀ st2 how, round ui registry provider i st = .stop st2 how →
      st2.requests.length = st.requests.length + 1) := by
  simp only [round]
  split
  · refine ⟨fun st2 h => by simp at h, fun st2 how h => ?_⟩
    simp only [RoundResult.stop.injEq] at h
    rw [← h.1]; simp
  · split
    · refine ⟨fun st2 h => by simp at h, fun st2 how h => ?_⟩
      simp only [RoundResult.stop.injEq] at h
      rw [← h.1]; simp
    · refine ⟨fun st2 h => by simp at h, fun st2 how h => ?_⟩
      simp only [RoundResult.stop.injEq] at h
      rw [← h.1]; simp
    · split
      · refine ⟨fun st2 h => ?_, fun st2 how h => by simp at h⟩
        simp only [RoundResult.next.injEq] at h
        rw [← h, (executeToolCalls_spec ui registry _ _).2.2]; simp
      · refine ⟨fun st2 h => by simp at h, fun st2 how h => ?_⟩
        simp only [RoundResult.stop.injEq] at h
        rw [← h.1]; simp

theorem turnLoop_requests_le {W : Type} (ui : UI) (registry : Registry W)
    (provider : LLMProvider) (n i : Nat) (st : AgentState W) :
    (turnLoop ui registry provider n i st).1.requests.length ≤ st.requests.length + n := by
  induction n generalizing i st with
  | zero => simp [turnLoop]
  | succ k ih =>
    rw [turnLoop]
    obtain ⟨hn, hs⟩ := round_requests ui registry provider i st
    cases hr : round ui registry provider i st with
    | next st2 =>
      have := ih (i + 1) st2
      have := hn st2 hr
      simp only
      omega
    | stop st2 how =>
      have := hs st2 how hr
      simp only
      omega

theorem turnLoop_all_tool_calls {W : Type} (ui : UI) (registry : Registry W)
    (provider : LLMProvider) (n i : Nat) (st : AgentState W)
    (h : ∀ j, i ≤ j → j < i + n → AnswersWithToolCall provider j) :
    (turnLoop ui registry provider n i st).1.requests.length = st.requests.length + n ∧
    (turnLoop ui registry provider n i st).2 = .maxTurnsReached ∧
    (turnLoop ui registry provider n i st).1.output.getLast?
      = some (ui.Yellow maxTurnsWarning) := by
  induction n generalizing i st with
  | zero => simp [turnLoop]
  | succ k ih =>
    obtain ⟨stream, fullResponse, toolCalls, tokens, hcall, hrecv, hne⟩ :=
      h i (Nat.le_refl i) (by omega) (requestOf provider st.session)
    obtain ⟨st2, _, _, hreq, _, hnext⟩ :=
      round_of_eof ui registry provider i st stream fullResponse toolCalls tokens hcall hrecv
    rw [turnLoop, hnext hne]
    obtain ⟨h1, h2, h3⟩ := ih (i + 1) st2 (fun j hj1 hj2 => h j (by omega) (by omega))
    refine ⟨?_, h2, h3⟩
    rw [h1, hreq]
    simp only [List.length_append, List.length_singleton]
    omega

/-- C3. A round whose stream ends normally with text `T` and tool calls `c_1..c_k` leaves
the history as the trimmed history it started from, then one assistant message with `T`
and `c_1..c_k`, then `k` tool messages in call order, the `j`-th with `tool_call_id`
`c_j.id` and as content the result of `c_j` or the description of its error; with `k = 0`
the turn ends there, otherwise the loop goes on. In particular, from a new session with
one user message, a provider that answers with one tool call that succeeds and then with
the text `Done` leaves exactly five messages: system, user, assistant with the tool call,
tool result, assistant `Done`. -/
theorem handleStreaming_round_history {W : Type} (ui : UI) (registry : Registry W)
    (provider : LLMProvider) :
    (∀ (i : Nat) (st : AgentState W) (stream : ChatCompletionStream) (fullResponse : String)
        (toolCalls : List ToolCall) (tokens : List String),
      provider.CreateChatCompletionStream i (requestOf provider st.session) = .ok stream →
      recvLoop stream.err stream.responses "" [] [] = .eof fullResponse toolCalls tokens →
      ∃ st2 : AgentState W,
        st2.session.History
          = st.session.TrimHistory.History ++ [assistantMessage fullResponse toolCalls]
            ++ List.zipWith toolMessage toolCalls (toolResults registry st.world toolCalls) ∧
        (toolResults registry st.world toolCalls).length = toolCalls.length ∧
        (toolCalls = [] → ∀ remaining,
          turnLoop ui registry provider (remaining + 1) i st = (st2, .finished)) ∧
        (toolCalls ≠ [] → ∀ remaining,
          turnLoop ui registry provider (remaining + 1) i st
            = turnLoop ui registry provider remaining (i + 1) st2)) ∧
    (∀ (w w2 : W) (userInput text result : String) (stream0 stream1 : ChatCompletionStream)
        (call : ToolCall) (tokens0 tokens1 : List String),
      (∀ req, provider.CreateChatCompletionStream 0 req = .ok stream0) →
      recvLoop stream0.err stream0.responses "" [] [] = .eof text [call] tokens0 →
      Execute registry call.Function.Name call.Function.Arguments w = (⟨result, none⟩, w2) →
      (∀ req, provider.CreateChatCompletionStream 1 req = .ok stream1) →
      recvLoop stream1.err stream1.responses "" [] [] = .eof "Done" [] tokens1 →
      ∃ st2 : AgentState W,
        handleStreaming ui registry provider (NewSession.AddUserMessage userInput) w
          = (st2, .finished) ∧
        st2.session.History
          = [systemMessage, userMessage userInput, assistantMessage text [call],
             { Role := "tool", Content := result, ToolCalls := [], ToolCallID := call.ID },
             assistantMessage "Done" []] ∧
        st2.session.History.length = 5) := by
  have general : ∀ (i : Nat) (st : AgentState W) (stream : ChatCompletionStream)
      (fullResponse : String) (toolCalls : List ToolCall) (tokens : List String),
      provider.CreateChatCompletionStream i (requestOf provider st.session) = .ok stream →
      recvLoop stream.err stream.responses "" [] [] = .eof fullResponse toolCalls tokens →
      ∃ st2 : AgentState W,
        st2.session.History
          = st.session.TrimHistory.History ++ [assistantMessage fullResponse toolCalls]
            ++ List.zipWith toolMessage toolCalls (toolResults registry st.world toolCalls) ∧
        (toolResults registry st.world toolCalls).length = toolCalls.length ∧
        (toolCalls = [] → ∀ remaining,
          turnLoop ui registry provider (remaining + 1) i st = (st2, .finished)) ∧
        (toolCalls ≠ [] → ∀ remaining,
          turnLoop ui registry provider (remaining + 1) i st
            = turnLoop ui registry provider remaining (i + 1) st2) := by
    intro i st stream fullResponse toolCalls tokens hcall hrecv
    obtain ⟨st2, hh, _, _, hstop, hnext⟩ :=
      round_of_eof ui registry provider i st stream fullResponse toolCalls tokens hcall hrecv
    refine ⟨st2, hh, length_toolResults registry toolCalls st.world, ?_, ?_⟩
    · intro hnil remaining
      rw [turnLoop, hstop hnil]
    · intro hne remaining
      rw [turnLoop, hnext hne]
  refine ⟨general, ?_⟩
  intro w w2 userInput text result stream0 stream1 call tokens0 tokens1 h0 hr0 hexec h1 hr1
  obtain ⟨st1, hist1, _, _, hnext⟩ := general 0
    { session := NewSession.AddUserMessage userInput, world := w, output := [], requests := [] }
    stream0 text [call] tokens0 (h0 _) hr0
  obtain ⟨st2, hist2, _, hstop, _⟩ := general 1 st1 stream1 "Done" [] tokens1 (h1 _) hr1
  have hst1 : st1.session.History
      = [systemMessage, userMessage userInput, assistantMessage text [call],
         { Role := "tool", Content := result, ToolCalls := [], ToolCallID := call.ID }] := by
    rw [hist1, TrimHistory_short _ (by simp [NewSession, Session.AddUserMessage,
      Session.AddMessage, maxHistory])]
    simp only [toolResults, hexec, List.zipWith_cons_cons, List.zipWith_nil_right]
    rfl
  have htrim : st1.session.TrimHistory = st1.session :=
    TrimHistory_short _ (by rw [hst1]; simp [maxHistory])
  have hst2 : st2.session.History
      = [systemMessage, userMessage userInput, assistantMessage text [call],
         { Role := "tool", Content := result, ToolCalls := [], ToolCallID := call.ID },
         assistantMessage "Done" []] := by
    rw [hist2, htrim, hst1]; rfl
  refine ⟨st2, ?_, hst2, by rw [hst2]; rfl⟩
  unfold handleStreaming maxTurns
  rw [hnext (by simp) 9, hstop rfl 8]

theorem handleStreaming_round_history_witness :
    ∃ st2 : AgentState Files,
      handleStreaming plainUI (fileTools testEnv) scenarioProvider
          (NewSession.AddUserMessage "List the files in /tmp") sampleFiles
        = (st2, .finished) ∧
      st2.session.History
        = [systemMessage, userMessage "List the files in /tmp", assistantMessage "" [readCall],
           { Role := "tool", Content := "Content of file \'/tmp/a.txt\':\n\nhello world",
             ToolCalls := [], ToolCallID := readCall.ID },
           assistantMessage "Done" []] ∧
      st2.session.History.length = 5 :=
  (handleStreaming_round_history plainUI (fileTools testEnv) scenarioProvider).2
    sampleFiles sampleFiles "List the files in /tmp" "" "Content of file \'/tmp/a.txt\':\n\nhello world"
    readCallStream doneStream readCall [] ["Done"]
    (fun _ => rfl) (by decide) (by decide) (fun _ => rfl) (by decide)

/-- C4. One call of `handleStreaming` sends at most `maxTurns = 10` requests to the
provider, whatever the provider does. When each of the ten answers is a stream that ends
normally with at least one tool call, it sends exactly ten requests, then sends the
max-turns warning as its last token and returns. -/
theorem handleStreaming_maxTurns {W : Type} (ui : UI) (registry : Registry W)
    (provider : LLMProvider) (session : Session) (world : W) :
    (handleStreaming ui registry provider session world).1.requests.length ≤ 10 ∧
    ((∀ i, i < 10 → AnswersWithToolCall provider i) →
      (handleStreaming ui registry provider session world).1.requests.length = 10 ∧
      (handleStreaming ui registry provider session world).2 = .maxTurnsReached ∧
      (handleStreaming ui registry provider session world).1.output.getLast?
        = some (ui.Yellow maxTurnsWarning)) := by
  unfold handleStreaming maxTurns
  constructor
  · have := turnLoop_requests_le ui registry provider 10 0
      { session := session, world := world, output := [], requests := [] }
    simpa using this
  · intro h
    have := turnLoop_all_tool_calls ui registry provider 10 0
      { session := session, world := world, output := [], requests := [] }
      (fun j _ hj => h j (by omega))
    simpa using this

theorem handleStreaming_maxTurns_witness :
    (handleStreaming plainUI (fileTools testEnv) insistentProvider
        (NewSession.AddUserMessage "go") sampleFiles).1.requests.length = 10 ∧
    (handleStreaming plainUI (fileTools testEnv) insistentProvider
        (NewSession.AddUserMessage "go") sampleFiles).2 = .maxTurnsReached ∧
    (handleStreaming plainUI (fileTools testEnv) insistentProvider
        (NewSession.AddUserMessage "go") sampleFiles).1.output.getLast?
      = some (plainUI.Yellow maxTurnsWarning) :=
  (handleStreaming_maxTurns plainUI (fileTools testEnv) insistentProvider
      (NewSession.AddUserMessage "go") sampleFiles).2
    (fun _ _ _ => ⟨readCallStream, "", [readCall], [], rfl, by decide, by decide⟩)

/-! ## The tool registry and `Execute` -/

theorem GetExecutor_eq_none_iff {W : Type} (registry : Registry W) (name : String) :
    GetExecutor registry name = none ↔ name ∉ registry.map Prod.fst := by
  unfold GetExecutor
  rw [List.lookup_eq_none_iff]
  simp only [List.mem_map, not_exists, not_and, bne_iff_ne, ne_eq]
  constructor
  · intro h p hp heq
    exact h p hp heq.symm
  · intro h p hp heq
    exact h p hp heq.symm

theorem GetExecutor_mem {W : Type} (registry : Registry W) (name : String) (fn : ToolFunc W)
    (h : GetExecutor registry name = some fn) : (name, fn) ∈ registry := by
  unfold GetExecutor at h
  obtain ⟨l1, l2, hl, _⟩ := List.lookup_eq_some_iff.mp h
  rw [hl]
  simp

/-- After `Register` stored `fn` under `name`, a lookup of `name` gives `fn` and every other
name is looked up as before. -/
theorem GetExecutor_Register {W : Type} (registry registry2 : Registry W) (name : String)
    (fn : ToolFunc W) (h : Register registry name fn = some registry2) :
    GetExecutor registry2 name = some fn ∧
    ∀ other, other ≠ name → GetExecutor registry2 other = GetExecutor registry other := by
  unfold Register at h
  cases hg : GetExecutor registry name with
  | some g => simp [hg] at h
  | none =>
    simp only [hg, Option.some.injEq] at h
    subst h
    unfold GetExecutor at hg ⊢
    constructor
    · rw [List.lookup_append, hg]
      simp [List.lookup]
    · intro other hne
      rw [List.lookup_append]
      cases List.lookup other registry with
      | some g => rfl
      | none =>
        have : (other == name) = false := by simpa using hne
        simp [List.lookup, this]

/-- C11. For a name that is not registered, `Execute` returns the empty result with the
not-found error and leaves the world as it was, whatever the registered implementations
are (so none of them ran); for a registered name it returns exactly what the implementation
stored under that name returns on the arguments. -/
theorem Execute_spec {W : Type} (registry : Registry W) (name arguments : String) (w : W) :
    (name ∉ registry.map Prod.fst →
      Execute registry name arguments w
        = (⟨"", some ("tool \'" ++ name ++ "\' not found in registry")⟩, w)) ∧
    (name ∈ registry.map Prod.fst →
      ∃ fn, (name, fn) ∈ registry ∧ GetExecutor registry name = some fn ∧
        Execute registry name arguments w = fn arguments w) ∧
    (∀ registry0 fn, Register registry0 name fn = some registry →
      Execute registry name arguments w = fn arguments w) := by
  refine ⟨fun h => ?_, fun h => ?_, fun registry0 fn h => ?_⟩
  · have hnone := (GetExecutor_eq_none_iff registry name).mpr h
    simp only [Execute, hnone]
  · cases hg : GetExecutor registry name with
    | none => exact absurd h ((GetExecutor_eq_none_iff registry name).mp hg)
    | some fn =>
      refine ⟨fn, GetExecutor_mem registry name fn hg, rfl, ?_⟩
      simp only [Execute, hg]
  · have hg := (GetExecutor_Register registry0 registry name fn h).1
    simp only [Execute, hg]

theorem Execute_spec_witness :
    Execute (fileTools testEnv) "nonexistent_tool" emptyArgsJSON sampleFiles
        = (⟨"", some "tool \'nonexistent_tool\' not found in registry"⟩, sampleFiles) ∧
    (∃ fn, ("read_file", fn) ∈ fileTools testEnv ∧
        GetExecutor (fileTools testEnv) "read_file" = some fn ∧
        Execute (fileTools testEnv) "read_file" readArgsJSON sampleFiles
          = fn readArgsJSON sampleFiles) :=
  ⟨(Execute_spec (fileTools testEnv) "nonexistent_tool" emptyArgsJSON sampleFiles).1
      (by decide),
   (Execute_spec (fileTools testEnv) "read_file" readArgsJSON sampleFiles).2.1 (by decide)⟩

/-! ## Tool failures and the output channel -/

theorem executeToolCall_output {W : Type} (ui : UI) (registry : Registry W)
    (st : AgentState W) (tc : ToolCall) :
    (executeToolCall ui registry st tc).output
      = st.output ++
        toolTokens ui tc (Execute registry tc.Function.Name tc.Function.Arguments st.world).1 := by
  unfold executeToolCall toolTokens
  rcases hE : Execute registry tc.Function.Name tc.Function.Arguments st.world
    with ⟨⟨res, err⟩, w2⟩
  cases err with
  | none => simp
  | some e => simp

theorem foldl_executeToolCall_output {W : Type} (ui : UI) (registry : Registry W)
    (toolCalls : List ToolCall) (st : AgentState W) :
    (toolCalls.foldl (executeToolCall ui registry) st).output
      = st.output ++ toolOutput ui registry st.world toolCalls := by
  induction toolCalls generalizing st with
  | nil => simp [toolOutput]
  | cons tc rest ih =>
    simp only [List.foldl_cons, toolOutput]
    rw [ih, executeToolCall_output, (executeToolCall_spec ui registry st tc).2.1,
      List.append_assoc]

/-- C12 as stated fails: the provider asks for a tool that is not registered; no transport
or pre-stream error happens and the turn finishes normally, yet the error text of the failed
tool call is among the tokens sent on the output channel. -/
theorem tool_error_sent_on_output :
    (handleStreaming plainUI (fileTools testEnv) confusedProvider
        (NewSession.AddUserMessage "go") sampleFiles).1.output
      = ["\n⚡ Executing 1 function call(s)...",
         "\n→ Calling tool: nonexistent_tool",
         "\nError executing tool \'nonexistent_tool\': tool \'nonexistent_tool\' not found in registry",
         "\n🔄 Resuming conversation...",
         "Done"] ∧
    (handleStreaming plainUI (fileTools testEnv) confusedProvider
        (NewSession.AddUserMessage "go") sampleFiles).2 = .finished := by
  decide

/-- C12, amended. `executeToolCalls` records one tool-role message per call and sends, between
its opening and closing notices, two tokens per call: the calling-tool notice and then, for
a call that failed, its error description in red, the same text that is recorded as the
content of the tool-role message; for a call that succeeded, the finished notice. So a
failed tool call is reported both to the model and on the output channel. -/
theorem executeToolCalls_reports_failures {W : Type} (ui : UI) (registry : Registry W)
    (st : AgentState W) (toolCalls : List ToolCall) :
    (executeToolCalls ui registry st toolCalls).session.History
      = st.session.History ++
        List.zipWith toolMessage toolCalls (toolResults registry st.world toolCalls) ∧
    (executeToolCalls ui registry st toolCalls).output
      = st.output ++
        ["\n" ++ ui.BrightCyan
          ("⚡ Executing " ++ toString toolCalls.length ++ " function call(s)...")] ++
        toolOutput ui registry st.world toolCalls ++
        ["\n" ++ ui.BrightCyan "🔄 Resuming conversation..."] ∧
    (∀ (tc : ToolCall) (r : ToolResult) (err : String), r.err = some err →
      toolMessage tc r
        = { Role := "tool", Content := toolErrorMsg tc.Function.Name err, ToolCalls := [],
            ToolCallID := tc.ID } ∧
      toolTokens ui tc r
        = ["\n" ++ ui.Blue "→ Calling tool:" ++ " " ++ ui.Cyan tc.Function.Name,
           "\n" ++ ui.Red (toolErrorMsg tc.Function.Name err)]) ∧
    (∀ (tc : ToolCall) (r : ToolResult), r.err = none →
      toolMessage tc r
        = { Role := "tool", Content := r.result, ToolCalls := [], ToolCallID := tc.ID } ∧
      toolTokens ui tc r
        = ["\n" ++ ui.Blue "→ Calling tool:" ++ " " ++ ui.Cyan tc.Function.Name,
           "\n" ++ ui.Green "✓ Tool finished."]) := by
  refine ⟨(executeToolCalls_spec ui registry toolCalls st).1, ?_, ?_, ?_⟩
  · unfold executeToolCalls
    simp only [foldl_executeToolCall_output]
  · intro tc r err h
    simp [toolMessage, toolContent, toolTokens, h]
  · intro tc r h
    simp [toolMessage, toolContent, toolTokens, h]

theorem executeToolCalls_reports_failures_witness :
    toolMessage unknownCall ⟨"", some "tool \'nonexistent_tool\' not found in registry"⟩
      = { Role := "tool",
          Content := toolErrorMsg "nonexistent_tool"
            "tool \'nonexistent_tool\' not found in registry",
          ToolCalls := [], ToolCallID := "call_9" } ∧
    toolTokens plainUI unknownCall ⟨"", some "tool \'nonexistent_tool\' not found in registry"⟩
      = ["\n" ++ plainUI.Blue "→ Calling tool:" ++ " " ++ plainUI.Cyan "nonexistent_tool",
         "\n" ++ plainUI.Red (toolErrorMsg "nonexistent_tool"
            "tool \'nonexistent_tool\' not found in registry")] :=
  (executeToolCalls_reports_failures plainUI (fileTools testEnv)
    { session := NewSession, world := sampleFiles, output := [], requests := [] }
    [unknownCall]).2.2.1 unknownCall
    ⟨"", some "tool \'nonexistent_tool\' not found in registry"⟩
    "tool \'nonexistent_tool\' not found in registry" rfl

/-! ## Transport errors -/

theorem recvLoop_streamError (err : Option String) (responses : List StreamResponse)
    (fullResponse : String) (acc : List ToolCall) (tokens tokens2 : List String) (e : String)
    (h : recvLoop err responses fullResponse acc tokens = .streamError e tokens2) :
    err = some e ∧ ∃ extra, tokens2 = tokens ++ extra ∧ ∀ t ∈ extra, IsTextDelta responses t := by
  induction responses generalizing fullResponse acc tokens with
  | nil =>
    cases err with
    | none => simp [recvLoop] at h
    | some e2 =>
      simp only [recvLoop, RecvResult.streamError.injEq] at h
      exact ⟨by rw [h.1], [], by simp [h.2], by simp⟩
  | cons r rest ih =>
    have lift : ∀ t, IsTextDelta rest t → IsTextDelta (r :: rest) t := by
      rintro t ⟨h1, r2, hr2, c, hc, ht⟩
      exact ⟨h1, r2, List.mem_cons_of_mem _ hr2, c, hc, ht⟩
    rw [recvLoop] at h
    cases hch : r.Choices with
    | nil => simp [hch] at h
    | cons choice others =>
      simp only [hch] at h
      have step : ∀ acc2, recvLoop err rest
          (if choice.Delta.Content ≠ "" then fullResponse ++ choice.Delta.Content
            else fullResponse) acc2
          (if choice.Delta.Content ≠ "" then tokens ++ [choice.Delta.Content] else tokens)
            = .streamError e tokens2 →
          err = some e ∧
            ∃ extra, tokens2 = tokens ++ extra ∧ ∀ t ∈ extra, IsTextDelta (r :: rest) t := by
        intro acc2 h2
        obtain ⟨he, extra, hx, hall⟩ := ih _ _ _ h2
        refine ⟨he, ?_⟩
        by_cases hc : choice.Delta.Content = ""
        · refine ⟨extra, ?_, fun t ht => lift t (hall t ht)⟩
          simpa [hc] using hx
        · refine ⟨choice.Delta.Content :: extra, ?_, ?_⟩
          · simpa [hc] using hx
          · intro t ht
            rcases List.mem_cons.mp ht with rfl | ht
            · exact ⟨hc, r, List.mem_cons_self _ _, choice, by simp [hch], rfl⟩
            · exact lift t (hall t ht)
      by_cases hl : choice.Delta.ToolCalls.length > 0
      · simp only [hl, if_true] at h
        cases hacc : accumulateToolCalls acc choice.Delta.ToolCalls with
        | none => simp [hacc] at h
        | some acc2 =>
          simp only [hacc] at h
          exact step acc2 h
      · simp only [hl, if_false] at h
        exact step acc h

/-- C13. When the provider call of a round fails synchronously, the loop sends the single
token `API Error: …` in red and returns; when the stream breaks with an error that is not
`io.EOF`, the loop sends the single token `Stream Error: …` in red after the text deltas
received so far and returns. In both cases the request of this round is the last one sent,
no assistant or tool message is recorded and the world is untouched (no tool ran), whatever
the number of rounds that were left. -/
theorem handleStreaming_transport_error {W : Type} (ui : UI) (registry : Registry W)
    (provider : LLMProvider) (i remaining : Nat) (st : AgentState W) :
    (∀ e, provider.CreateChatCompletionStream i (requestOf provider st.session) = .error e →
      turnLoop ui registry provider (remaining + 1) i st
        = ({ session := st.session.TrimHistory, world := st.world,
             output := st.output ++ [ui.Red ("API Error: " ++ e)],
             requests := st.requests ++ [requestOf provider st.session] }, .apiError)) ∧
    (∀ stream e tokens,
      provider.CreateChatCompletionStream i (requestOf provider st.session) = .ok stream →
      recvLoop stream.err stream.responses "" [] [] = .streamError e tokens →
      stream.err = some e ∧ (∀ t ∈ tokens, IsTextDelta stream.responses t) ∧
      turnLoop ui registry provider (remaining + 1) i st
        = ({ session := st.session.TrimHistory, world := st.world,
             output := st.output ++ tokens ++ [ui.Red ("Stream Error: " ++ e)],
             requests := st.requests ++ [requestOf provider st.session] }, .streamError)) := by
  constructor
  · intro e h
    unfold requestOf at h
    simp only [turnLoop, round, h]
    rfl
  · intro stream e tokens h hrecv
    obtain ⟨he, extra, hx, hall⟩ := recvLoop_streamError _ _ _ _ _ _ _ hrecv
    refine ⟨he, ?_, ?_⟩
    · intro t ht
      rw [hx] at ht
      exact hall t (by simpa using ht)
    · unfold requestOf at h
      simp only [turnLoop, round, h, hrecv]
      rfl

theorem handleStreaming_transport_error_witness :
    turnLoop plainUI (fileTools testEnv) failingProvider (9 + 1) 0
        { session := NewSession.AddUserMessage "go", world := sampleFiles, output := [],
          requests := [] }
      = ({ session := (NewSession.AddUserMessage "go").TrimHistory, world := sampleFiles,
           output := [] ++ [plainUI.Red ("API Error: " ++ "connection refused")],
           requests := [] ++ [requestOf failingProvider (NewSession.AddUserMessage "go")] },
         .apiError) ∧
    turnLoop plainUI (fileTools testEnv) brokenProvider (9 + 1) 0
        { session := NewSession.AddUserMessage "go", world := sampleFiles, output := [],
          requests := [] }
      = ({ session := (NewSession.AddUserMessage "go").TrimHistory, world := sampleFiles,
           output := [] ++ ["Hel"] ++ [plainUI.Red ("Stream Error: " ++ "unexpected EOF")],
           requests := [] ++ [requestOf brokenProvider (NewSession.AddUserMessage "go")] },
         .streamError) :=
  ⟨(handleStreaming_transport_error plainUI (fileTools testEnv) failingProvider 0 9
      { session := NewSession.AddUserMessage "go", world := sampleFiles, output := [],
        requests := [] }).1 "connection refused" rfl,
   ((handleStreaming_transport_error plainUI (fileTools testEnv) brokenProvider 0 9
      { session := NewSession.AddUserMessage "go", world := sampleFiles, output := [],
        requests := [] }).2 brokenStream "unexpected EOF" ["Hel"] rfl (by decide)).2.2⟩

/-! ## Tool-call accumulation: length and frame -/

theorem length_accumulateToolCalls (existing delta r : List ToolCall)
    (h : accumulateToolCalls existing delta = some r) :
    existing.length ≤ r.length ∧
    (∀ f ∈ delta, ∀ k : Int, f.Index = some k → 0 ≤ k → k.toNat < r.length) ∧
    (r.length = existing.length ∨
      ∃ f ∈ delta, ∃ k : Int, f.Index = some k ∧ 0 ≤ k ∧ r.length = k.toNat + 1) := by
  induction delta generalizing existing with
  | nil =>
    simp only [accumulateToolCalls, Option.some.injEq] at h
    subst h
    simp
  | cons f rest ih =>
    cases hidx : f.Index with
    | none =>
      simp only [accumulateToolCalls, mergeFragment_nil_index existing f hidx] at h
      obtain ⟨h1, h2, h3⟩ := ih existing h
      refine ⟨h1, ?_, ?_⟩
      · intro g hg k hk hnn
        rcases List.mem_cons.mp hg with rfl | hg
        · rw [hidx] at hk; exact absurd hk (by simp)
        · exact h2 g hg k hk hnn
      · rcases h3 with h3 | ⟨g, hg, k, hk, hnn, hl⟩
        · exact Or.inl h3
        · exact Or.inr ⟨g, List.mem_cons_of_mem _ hg, k, hk, hnn, hl⟩
    | some k0 =>
      by_cases hk0 : k0 < 0
      · by_cases hd : carriesData f
        · simp [accumulateToolCalls, mergeFragment_neg existing f k0 hidx hk0 hd] at h
        · simp only [accumulateToolCalls, mergeFragment_neg_skip existing f k0 hidx hk0 hd] at h
          obtain ⟨h1, h2, h3⟩ := ih existing h
          refine ⟨h1, ?_, ?_⟩
          · intro g hg k hk hnn
            rcases List.mem_cons.mp hg with rfl | hg
            · rw [hidx] at hk
              simp only [Option.some.injEq] at hk
              subst hk
              exact absurd hnn (not_le.mpr hk0)
            · exact h2 g hg k hk hnn
          · rcases h3 with h3 | ⟨g, hg, k, hk, hnn, hl⟩
            · exact Or.inl h3
            · exact Or.inr ⟨g, List.mem_cons_of_mem _ hg, k, hk, hnn, hl⟩
      · simp only [accumulateToolCalls,
          mergeFragment_nonneg existing f k0 hidx (not_lt.mp hk0)] at h
        obtain ⟨h1, h2, h3⟩ := ih _ h
        rw [length_merged] at h1
        have hle : existing.length ≤ r.length := Nat.le_trans (Nat.le_max_left _ _) h1
        have hk0r : k0.toNat < r.length :=
          Nat.lt_of_lt_of_le (Nat.lt_succ_self _) (Nat.le_trans (Nat.le_max_right _ _) h1)
        refine ⟨hle, ?_, ?_⟩
        · intro g hg k hk _
          rcases List.mem_cons.mp hg with rfl | hg
          · rw [hidx] at hk
            simp only [Option.some.injEq] at hk
            subst hk
            exact hk0r
          · exact h2 g hg k hk (by assumption)
        · rcases h3 with h3 | ⟨g, hg, k, hk, hnn, hl⟩
          · rw [length_merged] at h3
            by_cases hc : existing.length ≤ k0.toNat
            · refine Or.inr ⟨f, List.mem_cons_self _ _, k0, hidx, not_lt.mp hk0, ?_⟩
              rw [h3]; exact Nat.max_eq_right (by omega)
            · refine Or.inl ?_
              rw [h3]; exact Nat.max_eq_left (by omega)
          · exact Or.inr ⟨g, List.mem_cons_of_mem _ hg, k, hk, hnn, hl⟩

theorem accumulateToolCalls_filter_index (existing delta : List ToolCall) :
    accumulateToolCalls existing (delta.filter (fun f => f.Index.isSome))
      = accumulateToolCalls existing delta := by
  induction delta generalizing existing with
  | nil => rfl
  | cons f rest ih =>
    cases hidx : f.Index with
    | none =>
      simp only [List.filter_cons, hidx, Option.isSome_none, Bool.false_eq_true, if_false,
        accumulateToolCalls, mergeFragment_nil_index existing f hidx]
      exact ih existing
    | some k =>
      simp only [List.filter_cons, hidx, Option.isSome_some, if_true, accumulateToolCalls]
      cases mergeFragment existing f with
      | none => rfl
      | some e => exact ih e

theorem eq_of_entries (l1 l2 : List ToolCall) (hlen : l1.length = l2.length)
    (h : ∀ i, entry l1 i = entry l2 i) : l1 = l2 := by
  induction l1 generalizing l2 with
  | nil =>
    cases l2 with
    | nil => rfl
    | cons b t => simp at hlen
  | cons a t ih =>
    cases l2 with
    | nil => simp at hlen
    | cons b t2 =>
      have h0 := h 0
      simp only [entry, List.getD_cons_zero] at h0
      have ht := ih t2 (by simpa using hlen) (fun i => by
        have := h (i + 1)
        simpa [entry] using this)
      rw [h0, ht]

theorem mem_fragmentsFor (delta : List ToolCall) (f : ToolCall) (k : Int)
    (hf : f ∈ delta) (hk : f.Index = some k) (hnn : 0 ≤ k) :
    f ∈ fragmentsFor k.toNat delta := by
  unfold fragmentsFor
  rw [List.mem_filter]
  refine ⟨hf, ?_⟩
  simp [hk, Int.toNat_of_nonneg hnn]

theorem mem_of_mem_fragmentsFor (delta : List ToolCall) (f : ToolCall) (i : Nat)
    (hf : f ∈ fragmentsFor i delta) : f ∈ delta ∧ f.Index = some (i : Int) := by
  unfold fragmentsFor at hf
  rw [List.mem_filter] at hf
  exact ⟨hf.1, by simpa using hf.2⟩

theorem length_le_of_same_fragments (existing d1 d2 r1 r2 : List ToolCall)
    (hsame : ∀ i, fragmentsFor i d2 = fragmentsFor i d1)
    (h1 : accumulateToolCalls existing d1 = some r1)
    (h2 : accumulateToolCalls existing d2 = some r2) : r2.length ≤ r1.length := by
  obtain ⟨a1, a2, _⟩ := length_accumulateToolCalls existing d1 r1 h1
  obtain ⟨_, _, b3⟩ := length_accumulateToolCalls existing d2 r2 h2
  rcases b3 with b3 | ⟨f, hf, k, hk, hk0, hl⟩
  · omega
  · have hmem := mem_fragmentsFor d2 f k hf hk hk0
    rw [hsame] at hmem
    obtain ⟨hf1, _⟩ := mem_of_mem_fragmentsFor d1 f k.toNat hmem
    have := a2 f hf1 k hk hk0
    omega

/-- C15. When every index is non-negative, `accumulateToolCalls` returns a sequence `r`
with: its length is the larger of `len(existing)` and one more than the largest index
addressed (it is at least `len(existing)`, exceeds every index addressed, and is either
`len(existing)` or one more than an index addressed); an entry no fragment addresses is the
entry of `existing`, a zero-valued placeholder beyond its end; fragments without index are
ignored; entry `i` is entry `i` of `existing` with the fragments addressed to `i` merged in
order; so any other arrangement of the fragments that keeps the order within each index
gives the same `r`. -/
theorem accumulateToolCalls_frame (existing delta : List ToolCall)
    (hnn : ∀ f ∈ delta, ∀ k : Int, f.Index = some k → 0 ≤ k) :
    ∃ r, accumulateToolCalls existing delta = some r ∧
      existing.length ≤ r.length ∧
      (∀ f ∈ delta, ∀ k : Int, f.Index = some k → k.toNat < r.length) ∧
      (r.length = existing.length ∨
        ∃ f ∈ delta, ∃ k : Int, f.Index = some k ∧ r.length = k.toNat + 1) ∧
      (∀ i, fragmentsFor i delta = [] → entry r i = entry existing i) ∧
      accumulateToolCalls existing (delta.filter (fun f => f.Index.isSome)) = some r ∧
      (∀ i, entry r i = (fragmentsFor i delta).foldl applyDelta (entry existing i)) ∧
      (∀ delta2, (∀ f ∈ delta2, ∀ k : Int, f.Index = some k → 0 ≤ k) →
        (∀ i, fragmentsFor i delta2 = fragmentsFor i delta) →
        accumulateToolCalls existing delta2 = some r) := by
  cases h : accumulateToolCalls existing delta with
  | none =>
    obtain ⟨f, hf, k, hk, hneg, _⟩ := (accumulateToolCalls_none_iff existing delta).mp h
    have := hnn f hf k hk
    omega
  | some r =>
    obtain ⟨l1, l2, l3⟩ := length_accumulateToolCalls existing delta r h
    have l2n : ∀ f ∈ delta, ∀ k : Int, f.Index = some k → k.toNat < r.length :=
      fun f hf k hk => l2 f hf k hk (hnn f hf k hk)
    have l3n : r.length = existing.length ∨
        ∃ f ∈ delta, ∃ k : Int, f.Index = some k ∧ r.length = k.toNat + 1 := by
      rcases l3 with l3 | ⟨f, hf, k, hk, _, hl⟩
      · exact Or.inl l3
      · exact Or.inr ⟨f, hf, k, hk, hl⟩
    refine ⟨r, rfl, l1, l2n, l3n, ?_, ?_, entry_accumulateToolCalls existing delta r h, ?_⟩
    · intro i hi
      rw [entry_accumulateToolCalls existing delta r h i, hi]
      rfl
    · rw [accumulateToolCalls_filter_index, h]
    · intro delta2 hnn2 hsame
      cases h2 : accumulateToolCalls existing delta2 with
      | none =>
        obtain ⟨f, hf, k, hk, hneg, _⟩ := (accumulateToolCalls_none_iff existing delta2).mp h2
        have := hnn2 f hf k hk
        omega
      | some r2 =>
        have hle1 := length_le_of_same_fragments existing delta delta2 r r2 hsame h h2
        have hle2 := length_le_of_same_fragments existing delta2 delta r2 r
          (fun i => (hsame i).symm) h2 h
        have hent : ∀ i, entry r2 i = entry r i := by
          intro i
          rw [entry_accumulateToolCalls existing delta2 r2 h2 i,
            entry_accumulateToolCalls existing delta r h i, hsame i]
        rw [eq_of_entries r2 r (Nat.le_antisymm hle1 hle2) hent]

theorem accumulateToolCalls_frame_witness :
    accumulateToolCalls [] sampleGrouped = accumulateToolCalls [] sampleDelta := by
  obtain ⟨r, h, _, _, _, _, _, _, hsame⟩ := accumulateToolCalls_frame [] sampleDelta (by decide)
  rw [h]
  refine hsame sampleGrouped (by decide) (fun i => ?_)
  match i with
  | 0 => decide
  | 1 => decide
  | n + 2 =>
    have h0 : ¬ ((0 : Int) = (n : Int) + 2) := by omega
    have h1 : ¬ ((1 : Int) = (n : Int) + 2) := by omega
    simp [fragmentsFor, sampleGrouped, sampleDelta, fragment, List.filter_cons, h0, h1]

/-! ## The requests sent to the provider -/

theorem length_TrimHistory_le (s : Session) : s.TrimHistory.History.length ≤ maxHistory := by
  by_cases hl : s.History.length ≤ maxHistory
  · rw [TrimHistory_short s hl]; exact hl
  · cases hs : s.History with
    | nil => rw [hs] at hl; simp at hl
    | cons m rest =>
      rw [TrimHistory_long s m rest hs (not_le.mp hl)]
      simp only [List.length_cons, List.length_drop, maxHistory]
      simp only [maxHistory] at hl
      omega

theorem TrimHistory_keeps_system (s : Session) (rest : List Message)
    (h : s.History = systemMessage :: rest) :
    ∃ rest2, s.TrimHistory.History = systemMessage :: rest2 := by
  by_cases hl : s.History.length ≤ maxHistory
  · exact ⟨rest, by rw [TrimHistory_short s hl, h]⟩
  · exact ⟨_, by rw [TrimHistory_long s _ rest h (not_le.mp hl)]⟩

/-- In every case a round sends exactly one request, the one built from the session it
started with, and leaves a session that still starts with the system message. -/
theorem round_request_and_system {W : Type} (ui : UI) (registry : Registry W)
    (provider : LLMProvider) (i : Nat) (st : AgentState W) (rest : List Message)
    (hsys : st.session.History = systemMessage :: rest) :
    (∀ st2, round ui registry provider i st = .next st2 →
      st2.requests = st.requests ++ [requestOf provider st.session] ∧
      ∃ rest2, st2.session.History = systemMessage :: rest2) ∧
    (∀ st2 how, round ui registry provider i st = .stop st2 how →
      st2.requests = st.requests ++ [requestOf provider st.session] ∧
      ∃ rest2, st2.session.History = systemMessage :: rest2) := by
  obtain ⟨rest1, h1⟩ := TrimHistory_keeps_system st.session rest hsys
  simp only [round]
  split
  · refine ⟨fun st2 h => by simp at h, fun st2 how h => ?_⟩
    simp only [RoundResult.stop.injEq] at h
    rw [← h.1]
    exact ⟨rfl, rest1, h1⟩
  · split
    · refine ⟨fun st2 h => by simp at h, fun st2 how h => ?_⟩
      simp only [RoundResult.stop.injEq] at h
      rw [← h.1]
      exact ⟨rfl, rest1, h1⟩
    · refine ⟨fun st2 h => by simp at h, fun st2 how h => ?_⟩
      simp only [RoundResult.stop.injEq] at h
      rw [← h.1]
      exact ⟨rfl, rest1, h1⟩
    · split
      · refine ⟨fun st2 h => ?_, fun st2 how h => by simp at h⟩
        simp only [RoundResult.next.injEq] at h
        rw [← h]
        refine ⟨by rw [(executeToolCalls_spec ui registry _ _).2.2]; rfl, ?_⟩
        rw [(executeToolCalls_spec ui registry _ _).1]
        simp only [AddAssistantMessage_history, h1]
        exact ⟨_, rfl⟩
      · refine ⟨fun st2 h => by simp at h, fun st2 how h => ?_⟩
        simp only [RoundResult.stop.injEq] at h
        rw [← h.1]
        refine ⟨rfl, ?_⟩
        simp only [AddAssistantMessage_history, h1]
        exact ⟨_, rfl⟩

theorem turnLoop_requests {W : Type} (ui : UI) (registry : Registry W)
    (provider : LLMProvider) (n i : Nat) (st : AgentState W) (rest : List Message)
    (hsys : st.session.History = systemMessage :: rest) :
    (turnLoop ui registry provider n i st).1.requests
      = st.requests ++
        (roundStarts ui registry provider n i st).map (fun s => requestOf provider s.session) ∧
    (∀ s ∈ roundStarts ui registry provider n i st,
      ∃ rest2, s.session.History = systemMessage :: rest2) ∧
    (∃ rest2, (turnLoop ui registry provider n i st).1.session.History
      = systemMessage :: rest2) := by
  induction n generalizing i st rest with
  | zero => exact ⟨by simp [turnLoop, roundStarts], by simp [roundStarts], rest, hsys⟩
  | succ k ih =>
    obtain ⟨hn, hs⟩ := round_request_and_system ui registry provider i st rest hsys
    rw [turnLoop, roundStarts]
    cases hr : round ui registry provider i st with
    | next st2 =>
      obtain ⟨hreq, rest2, hsys2⟩ := hn st2 hr
      obtain ⟨i1, i2, i3⟩ := ih (i + 1) st2 rest2 hsys2
      refine ⟨?_, ?_, i3⟩
      · simp only [i1, hreq, List.map_cons, List.append_assoc, List.singleton_append]
      · intro s hs2
        rcases List.mem_cons.mp hs2 with rfl | hs2
        · exact ⟨rest, hsys⟩
        · exact i2 s hs2
    | stop st2 how =>
      obtain ⟨hreq, hsys2⟩ := hs st2 how hr
      refine ⟨?_, ?_, hsys2⟩
      · simp only [hreq, List.map_cons, List.map_nil]
      · intro s hs2
        rw [List.mem_singleton] at hs2
        subst hs2
        exact ⟨rest, hsys⟩

/-- C16. Let the session start with the system message, as every session reached from
`NewSession` does. Then the requests `handleStreaming` sends are, in order, the requests
built at the start of each round it runs: the message list of each is the history of the
session at the start of that round after `TrimHistory` (the session the previous round left,
with its tool results). Each carries at most 20 messages and begins with the system message,
and the session the turn leaves again starts with the system message. -/
theorem handleStreaming_requests {W : Type} (ui : UI) (registry : Registry W)
    (provider : LLMProvider) (session : Session) (world : W)
    (hsys : ∃ rest, session.History = systemMessage :: rest) :
    (handleStreaming ui registry provider session world).1.requests
      = (roundStarts ui registry provider maxTurns 0
          { session := session, world := world, output := [], requests := [] }).map
          (fun s => ({ Messages := s.session.TrimHistory.History, Tools := provider.GetTools,
                       Stream := true } : ChatCompletionRequest)) ∧
    (∀ req ∈ (handleStreaming ui registry provider session world).1.requests,
      req.Messages.length ≤ 20 ∧ req.Messages.head? = some systemMessage) ∧
    (∃ rest2, (handleStreaming ui registry provider session world).1.session.History
      = systemMessage :: rest2) := by
  obtain ⟨rest, hrest⟩ := hsys
  obtain ⟨h1, h2, h3⟩ := turnLoop_requests ui registry provider maxTurns 0
    { session := session, world := world, output := [], requests := [] } rest hrest
  unfold handleStreaming
  refine ⟨by simpa [requestOf, Session.GetHistory] using h1, ?_, h3⟩
  intro req hreq
  rw [h1] at hreq
  simp only [List.nil_append, List.mem_map] at hreq
  obtain ⟨s, hs, rfl⟩ := hreq
  obtain ⟨rest2, hs2⟩ := h2 s hs
  obtain ⟨rest3, hs3⟩ := TrimHistory_keeps_system s.session rest2 hs2
  refine ⟨length_TrimHistory_le s.session, ?_⟩
  simp [requestOf, Session.GetHistory, hs3]

theorem handleStreaming_requests_witness :
    (handleStreaming plainUI (fileTools testEnv) insistentProvider
        ⟨longHistory 24⟩ sampleFiles).1.requests.all
      (fun req => decide (req.Messages.length ≤ 20) &&
        decide (req.Messages.head? = some systemMessage)) = true :=
  List.all_eq_true.mpr (fun req hreq => by
    have h := (handleStreaming_requests plainUI (fileTools testEnv) insistentProvider
      ⟨longHistory 24⟩ sampleFiles ⟨(longHistory 24).tail, rfl⟩).2.1 req hreq
    simp [h.1, h.2])

/-! ## Path checks -/

/-- C14, at the failing input. With working directory `/home/user/project` the relative
path `../../../etc/passwd` is resolved by `filepath.Abs` to `/etc/passwd` before the test
for `..` runs, so the test finds nothing: `normalizePath` accepts the path although it
lies outside the working directory, and `read_file` returns the content of that file.
The absolute path `/etc/passwd` is accepted in the same way. -/
theorem normalizePath_accepts_outside_root :
    normalizePath (unixEnv projectDir) "../../../etc/passwd" = .ok "/etc/passwd" ∧
    normalizePath (unixEnv projectDir) "/etc/passwd" = .ok "/etc/passwd" ∧
    insideRoot projectDir "/etc/passwd" = false ∧
    toolReadFile (unixEnv projectDir) climbArgsJSON systemFiles
      = (⟨"Content of file \'../../../etc/passwd\':\n\nroot:x:0:0", none⟩, systemFiles) := by
  refine ⟨rfl, rfl, by decide, by decide⟩

theorem normalizePath_ok_iff {W : Type} (env : Env W) (path q : String) :
    normalizePath env path = .ok q
      ↔ env.Abs path = .ok q ∧ Strings.Contains q ".." = false := by
  unfold normalizePath
  cases hA : env.Abs path with
  | error e => simp
  | ok absPath =>
    by_cases hc : Strings.Contains absPath ".." = true
    · simp only [hc, if_true]
      constructor
      · intro h; simp at h
      · rintro ⟨h1, h2⟩
        simp only [Except.ok.injEq] at h1
        rw [h1] at hc
        rw [hc] at h2
        simp at h2
    · simp only [hc, Bool.false_eq_true, if_false, Except.ok.injEq]
      constructor
      · intro h; subst h; exact ⟨rfl, by simpa using hc⟩
      · intro h; exact h.1

theorem normalizePath_rejects {W : Type} (env : Env W) (path absPath : String)
    (habs : env.Abs path = .ok absPath) (hdots : Strings.Contains absPath ".." = true) :
    normalizePath env path = .error "invalid path: contains \'..\'" := by
  simp [normalizePath, habs, hdots]

/-- What `normalizePath` does for the three file tools: a path is accepted exactly when
`filepath.Abs` resolves it to a form without `..`, and then the file system is asked for
the resolved form; when the resolved form contains `..` the three tools fail with the
invalid-path error and leave the world untouched. -/
theorem normalizePath_spec {W : Type} (env : Env W) (w : W) (path : String) :
    (∀ q, normalizePath env path = .ok q
      ↔ env.Abs path = .ok q ∧ Strings.Contains q ".." = false) ∧
    (∀ q, normalizePath env path = .ok q →
      readLocalFile env w path = env.ReadFile w q ∧
      ∀ content, createFile env w path content
        = match env.MkdirAll w (env.Dir q) with
          | (some err, w2) => (some err, w2)
          | (none, w2) => env.WriteFile w2 q content) ∧
    (∀ absPath, env.Abs path = .ok absPath → Strings.Contains absPath ".." = true →
      normalizePath env path = .error "invalid path: contains \'..\'" ∧
      (∀ a, env.unmarshalReadFile a = .ok ⟨path⟩ →
        toolReadFile env a w
          = (⟨"", some ("error reading file \'" ++ path
                ++ "\': invalid path: contains \'..\'")⟩, w)) ∧
      (∀ a content, env.unmarshalCreateFile a = .ok ⟨path, content⟩ →
        toolCreateFile env a w
          = (⟨"", some ("error creating file \'" ++ path
                ++ "\': invalid path: contains \'..\'")⟩, w)) ∧
      (∀ a S N, env.unmarshalEditFile a = .ok ⟨path, S, N⟩ →
        toolEditFile env a w = (⟨"", some "invalid path: contains \'..\'"⟩, w))) := by
  refine ⟨normalizePath_ok_iff env path, ?_, ?_⟩
  · intro q hq
    constructor
    · simp only [readLocalFile, hq]
      cases env.ReadFile w q <;> rfl
    · intro content
      simp only [createFile, hq]
  · intro absPath habs hdots
    have hrej := normalizePath_rejects env path absPath habs hdots
    refine ⟨hrej, ?_, ?_, ?_⟩
    · intro a ha
      simp only [toolReadFile, ha, readLocalFile, hrej]
      simp [String.append_assoc]
    · intro a content ha
      simp only [toolCreateFile, ha, createFile, hrej]
      simp [String.append_assoc]
    · intro a S N ha
      simp only [toolEditFile, ha, readLocalFile, hrej]

theorem normalizePath_spec_witness :
    normalizePath (unixEnv projectDir) "notes..txt" = .error "invalid path: contains \'..\'" ∧
    toolReadFile (unixEnv projectDir) dotsArgsJSON systemFiles
      = (⟨"", some ("error reading file \'" ++ "notes..txt"
            ++ "\': invalid path: contains \'..\'")⟩, systemFiles) :=
  ⟨((normalizePath_spec (unixEnv projectDir) systemFiles "notes..txt").2.2
      "/home/user/project/notes..txt" rfl (by decide)).1,
   ((normalizePath_spec (unixEnv projectDir) systemFiles "notes..txt").2.2
      "/home/user/project/notes..txt" rfl (by decide)).2.1 dotsArgsJSON rfl⟩

end Synapse
